import Mathlib

/-!
# mjson (`src/index.js`): a shallow embedding and its verified properties

`index.js` is a command-line JSON formatter.  Its pipeline `minify` strips
comments with the external `jsonminify`, parses with `JSON.parse`, renders with
`JSON.stringify(value, null, indent)` and, for terminal output, wraps quoted
strings in colour codes with `String.prototype.replace`.  Three modes
(`stdin2stdout`, `file2stdout`, `file2file`) move text between the standard
streams and the file system; `main` picks one of them.

Modelling conventions:

* a JavaScript string is the list of its UTF-16 code units (`JSString`);
* the mutable pieces of the process (file system, standard streams, the
  `commander` option table) are one explicit `World` value, threaded through
  every function; a function that can throw returns `Except JSError _` next to
  the world it leaves behind;
* the libraries the program only calls (`jsonminify`, `JSON.parse`,
  `jsonlint.parse`, the `Buffer` codecs, colour support detection of `colors`)
  are the fields of `Externals`; general theorems hold for every value of them;
* `JSON.stringify` and the regular-expression replacement are embedded from
  ECMA-262 (SerializeJSONProperty, QuoteJSONString, Number::toString,
  RegExp.prototype[Symbol.replace]);
* the embedding starts where `cmd.parse` has filled the option table: the parsing
  of the command line by `commander` and the read of `package.json` at load time
  (lines 16-17) come before the functions studied here.
-/

namespace Mjson

/-! ## Strings -/

/-- A JavaScript string: its UTF-16 code units, in order. -/
abbrev JSString := List Nat

/-- The code units of a Lean string literal (used for texts in the Basic
Multilingual Plane only, where characters and code units coincide). -/
def js (s : String) : JSString := s.toList.map Char.toNat

/-- Code unit of the double quote. -/
def QUOTE : Nat := 0x22

/-- Code unit of the backslash. -/
def BACKSLASH : Nat := 0x5C

/-- Code unit of the terminal escape character U+001B. -/
def ESC : Nat := 0x1B

/-- Code unit of the line feed. -/
def LF : Nat := 0x0A

/-! ## JSON values as `JSON.parse` produces them -/

/-- A JavaScript number as `Number::toString` sees it.  A finite non-zero
number is given by the triple of ECMA-262 6.1.6.1.20: its sign, the decimal
digits of `s` (there are `k` of them) and the exponent `n`, the value being
`± s × 10^(n-k)`. -/
inductive JSNumber where
  | nonFinite : JSNumber
  | zero : JSNumber
  | finite (neg : Bool) (digits : List (Fin 10)) (n : Int) : JSNumber
  deriving DecidableEq, Repr

/-- The value tree built by `JSON.parse`.  An object is the list of its own
enumerable properties in the order `EnumerableOwnProperties` lists them. -/
inductive JSONValue where
  | null : JSONValue
  | bool (b : Bool) : JSONValue
  | number (x : JSNumber) : JSONValue
  | string (s : JSString) : JSONValue
  | array (elements : List JSONValue) : JSONValue
  | object (members : List (JSString × JSONValue)) : JSONValue
  deriving Repr

/-! ## `Number::toString` (radix 10) -/

/-- Code unit of a decimal digit. -/
def digitUnit (d : Fin 10) : Nat := 0x30 + d.val

/-- Decimal digits of a natural number, most significant first, by repeated
division; `fuel` bounds the number of digits produced. -/
def decimalDigitsAux : Nat → Nat → List Nat → List Nat
  | 0, _, acc => acc
  | fuel + 1, m, acc =>
    if m < 10 then (0x30 + m) :: acc
    else decimalDigitsAux fuel (m / 10) ((0x30 + m % 10) :: acc)

/-- Decimal representation of a natural number. -/
def decimalDigits (m : Nat) : JSString := decimalDigitsAux (m + 1) m []

/-- The exponent part of the scientific form: `e`, the sign of the exponent
and its absolute value in decimal. -/
def exponentText (e : Int) : JSString :=
  js "e" ++ (if 0 ≤ e then js "+" else js "-") ++ decimalDigits e.natAbs

/-- The steps of `Number::toString` for a positive finite number, given the
code units `digits` of the decimal digits of `s` (there are `k` of them) and
the exponent `n`. -/
def digitsToString (digits : JSString) (n : Int) : JSString :=
  let k : Int := digits.length
  if k ≤ n ∧ n ≤ 21 then
    digits ++ List.replicate (n - k).toNat 0x30
  else if 0 < n ∧ n ≤ 21 then
    digits.take n.toNat ++ js "." ++ digits.drop n.toNat
  else if -6 < n ∧ n ≤ 0 then
    js "0." ++ List.replicate (-n).toNat 0x30 ++ digits
  else
    match digits with
    | [] => exponentText (n - 1)
    | [d] => d :: exponentText (n - 1)
    | d :: rest => d :: (js "." ++ rest ++ exponentText (n - 1))

/-- Embedding of `Number::toString` for a positive finite number with digits `ds` and
exponent `n`. -/
def positiveToString (ds : List (Fin 10)) (n : Int) : JSString :=
  digitsToString (ds.map digitUnit) n

/-- Embedding of `Number::toString(x)` for a finite `x`; the non-finite names are never
printed by `JSON.stringify`. -/
def numberToString : JSNumber → JSString
  | .nonFinite => js "NaN"
  | .zero => js "0"
  | .finite neg ds n => (if neg then js "-" else []) ++ positiveToString ds n

/-! ## `QuoteJSONString` -/

/-- One lowercase hexadecimal digit. -/
def hexDigit (d : Nat) : Nat := if d < 10 then 0x30 + d else 0x61 + (d - 10)

/-- Embedding of `UnicodeEscape(C)`: backslash, `u` and four lowercase hexadecimal digits. -/
def unicodeEscape (c : Nat) : JSString :=
  [BACKSLASH, 0x75, hexDigit (c / 4096 % 16), hexDigit (c / 256 % 16),
    hexDigit (c / 16 % 16), hexDigit (c % 16)]

/-- Leading surrogate code unit. -/
def isLeadingSurrogate (c : Nat) : Bool := 0xD800 ≤ c && c ≤ 0xDBFF

/-- Trailing surrogate code unit. -/
def isTrailingSurrogate (c : Nat) : Bool := 0xDC00 ≤ c && c ≤ 0xDFFF

/-- The text `QuoteJSONString` emits for one code point that is a single code
unit: the two-character escapes of its table, a `\uXXXX` escape for the other
control characters and for a lone surrogate, the unit itself otherwise. -/
def quoteUnit (c : Nat) : JSString :=
  if c = 0x08 then js "\\b"
  else if c = 0x09 then js "\\t"
  else if c = 0x0A then js "\\n"
  else if c = 0x0C then js "\\f"
  else if c = 0x0D then js "\\r"
  else if c = 0x22 then js "\\\""
  else if c = 0x5C then js "\\\\"
  else if c < 0x20 ∨ isLeadingSurrogate c ∨ isTrailingSurrogate c then unicodeEscape c
  else [c]

/-- Whether the next code unit is a trailing surrogate. -/
def nextIsTrailing : JSString → Bool
  | [] => false
  | d :: _ => isTrailingSurrogate d

/-- The body of `QuoteJSONString`: code points are read as by
`StringToCodePoints`, so a leading surrogate directly followed by a trailing
one is a pair and both units are copied; every other unit goes through
`quoteUnit`.  The flag says that the unit at hand is the second half of such a
pair. -/
def quoteBodyAux : Bool → JSString → JSString
  | _, [] => []
  | true, d :: rest => d :: quoteBodyAux false rest
  | false, c :: rest =>
    if isLeadingSurrogate c ∧ nextIsTrailing rest then c :: quoteBodyAux true rest
    else quoteUnit c ++ quoteBodyAux false rest

/-- The escaped text of a string, without the surrounding quotes. -/
def quoteBody (value : JSString) : JSString := quoteBodyAux false value

/-- Embedding of `QuoteJSONString(value)`. -/
def QuoteJSONString (value : JSString) : JSString :=
  QUOTE :: (quoteBody value ++ [QUOTE])

/-! ## `JSON.stringify(value, null, space)` -/

/-- Elements of a list joined with a separator. -/
def joinWith (sep : JSString) : List JSString → JSString
  | [] => []
  | [x] => x
  | x :: y :: rest => x ++ sep ++ joinWith sep (y :: rest)

/-- Final step of `SerializeJSONArray` / `SerializeJSONObject`: `items` are the
serialized elements (members), `stepback` the indentation outside the brackets,
`indent` the one inside. -/
def wrapItems (opening closing : Nat) (gap stepback indent : JSString)
    (items : List JSString) : JSString :=
  match items with
  | [] => [opening, closing]
  | _ :: _ =>
    if gap = [] then
      opening :: (joinWith (js ",") items ++ [closing])
    else
      opening :: (LF :: indent ++ joinWith (js "," ++ LF :: indent) items
        ++ (LF :: stepback) ++ [closing])

mutual
/-- Embedding of `SerializeJSONProperty` on a value produced by `JSON.parse` (no `toJSON`,
no replacer), with the state fields `gap` and `indent`. -/
def SerializeJSONProperty (gap indent : JSString) : JSONValue → JSString
  | .null => js "null"
  | .bool true => js "true"
  | .bool false => js "false"
  | .string s => QuoteJSONString s
  | .number .nonFinite => js "null"
  | .number x => numberToString x
  | .array elements =>
    wrapItems 0x5B 0x5D gap indent (indent ++ gap)
      (SerializeJSONElements gap (indent ++ gap) elements)
  | .object members =>
    wrapItems 0x7B 0x7D gap indent (indent ++ gap)
      (SerializeJSONMembers gap (indent ++ gap) members)
/-- The serialized elements of an array, in index order. -/
def SerializeJSONElements (gap indent : JSString) : List JSONValue → List JSString
  | [] => []
  | v :: vs => SerializeJSONProperty gap indent v :: SerializeJSONElements gap indent vs
/-- The serialized members of an object: quoted key, colon, a space when a
gap is in use, and the serialized value. -/
def SerializeJSONMembers (gap indent : JSString) :
    List (JSString × JSONValue) → List JSString
  | [] => []
  | (key, v) :: ms =>
    (QuoteJSONString key ++ js ":" ++ (if gap = [] then [] else js " ")
        ++ SerializeJSONProperty gap indent v)
      :: SerializeJSONMembers gap indent ms
end

/-- Embedding of `JSON.stringify(value, null, space)` with a string `space`: the gap is the
first ten code units of `space`, the initial indentation is empty. -/
def JSON_stringify (value : JSONValue) (space : JSString) : JSString :=
  SerializeJSONProperty (space.take 10) [] value

/-! ## `output.replace(/"(.*?)"/g, "\"$1\"".green)` -/

/-- What `.` does not match (no `s` flag): the four line terminators. -/
def isLineTerminator (c : Nat) : Bool :=
  c == 0x0A || c == 0x0D || c == 0x2028 || c == 0x2029

/-- The rest of the pattern, `(.*?)"`, tried right after an opening quote.  The
lazy star grows one unit at a time, so the match ends at the first quote that
follows, provided no line terminator stands before it.  Gives the captured
text and the text after the closing quote. -/
def matchBody : JSString → Option (JSString × JSString)
  | [] => none
  | c :: cs =>
    if c = QUOTE then some ([], cs)
    else if isLineTerminator c then none
    else
      match matchBody cs with
      | some (captured, rest) => some (c :: captured, rest)
      | none => none

/-- Opening code of the `green` style of `colors` (ansi-styles: 32). -/
def GREEN_OPEN : JSString := ESC :: js "[32m"

/-- Closing code of every foreground colour of `colors` (ansi-styles: 39). -/
def COLOR_RESET : JSString := ESC :: js "[39m"

/-- Opening code of the `blue` style, which the theme gives to `debug`. -/
def BLUE_OPEN : JSString := ESC :: js "[34m"

/-- Embedding of `colors.stylize(str, style)` for a style with the given opening code: the
text is returned as it is when colour support is off. -/
def stylize (enabled : Bool) (opening : JSString) (str : JSString) : JSString :=
  if enabled then opening ++ str ++ COLOR_RESET else str

/-- The text put in place of one match.  The replacement template is
`"\"$1\"".green`: quote, `$1`, quote, between the green codes when colours are
enabled; `$1` stands for the captured text. -/
def replacement (enabled : Bool) (captured : JSString) : JSString :=
  stylize enabled GREEN_OPEN (QUOTE :: (captured ++ [QUOTE]))

/-- The global replace loop: matches are looked for from left to right, each
search starting where the previous match ended; text outside the matches is
copied.  Every step consumes at least one unit, so `fuel` at least the length
of the text is never used up. -/
def replaceLoop (enabled : Bool) : Nat → JSString → JSString
  | 0, s => s
  | _ + 1, [] => []
  | fuel + 1, c :: cs =>
    if c = QUOTE then
      match matchBody cs with
      | some (captured, rest) => replacement enabled captured ++ replaceLoop enabled fuel rest
      | none => c :: replaceLoop enabled fuel cs
    else c :: replaceLoop enabled fuel cs

/-- The colour pass of `minify`: `output.replace(/"(.*?)"/g, "\"$1\"".green)`. -/
def colorize (enabled : Bool) (output : JSString) : JSString :=
  replaceLoop enabled output.length output

/-! ## The process: errors, libraries, file system, options -/

/-- Exceptions the program can meet.  `thrown` is an error object raised by a
parser; the others are the `fs` failures by their codes. -/
inductive JSError where
  | thrown (name message : JSString)
  | ENOENT (path : JSString)
  | EISDIR (path : JSString)
  | ERR_INVALID_ARG_TYPE
  | ERR_INVALID_ARG_VALUE (encoding : JSString)
  deriving DecidableEq, Repr

/-- The libraries `index.js` calls and does not define. -/
structure Externals where
  /-- Library function `jsonminify(text)`: comment and whitespace stripping. -/
  jsonminify : JSString → JSString
  /-- Built-in `JSON.parse(text)`. -/
  JSON_parse : JSString → Except JSError JSONValue
  /-- Library function `jsonlint.parse(text)`. -/
  jsonlint_parse : JSString → Except JSError JSONValue
  /-- Whether `colors` found colour support (`colors.enabled`). -/
  colorsEnabled : Bool
  /-- Built-in `Buffer.isEncoding(name)`. -/
  isEncoding : JSString → Bool
  /-- Built-in `buffer.toString(encoding)`: bytes to text. -/
  decode : JSString → List Nat → JSString
  /-- Built-in `Buffer.from(text, encoding)`: text to bytes. -/
  encode : JSString → JSString → List Nat

/-- What a path names. -/
inductive FileNode where
  | file (bytes : List Nat)
  | directory
  deriving DecidableEq, Repr

/-- The file system: what each path names, if anything.  Every path is taken
to lie in an existing directory the process may read and write. -/
abbrev FileSystem := JSString → Option FileNode

/-- The option table of `commander` after `cmd.parse`; `none` is `undefined`. -/
structure Options where
  debug : Bool
  color : Bool
  indent : JSString
  src : Option JSString
  out : Option JSString
  encode : JSString
  force : Bool
  deriving DecidableEq, Repr

/-- Everything the program reads or changes. -/
structure World where
  /-- The file system. -/
  files : FileSystem
  /-- Chunks that standard input will deliver before it ends. -/
  stdin : List JSString
  /-- Bytes written to standard output so far (as text). -/
  stdout : JSString
  /-- Text written to the error stream so far. -/
  stderr : JSString
  /-- The `cmd` option table. -/
  cmd : Options
  /-- Positional arguments, `cmd.args`. -/
  args : List JSString
  /-- Whether the variable `debug` holds the printing function. -/
  debugEnabled : Bool
  /-- Ghost field: the arguments of every call of `minify` so far. -/
  minifyCalls : List (JSString × Bool)

/-- JavaScript truthiness of a value that is a string or `undefined`. -/
def truthy : Option JSString → Bool
  | none => false
  | some s => !s.isEmpty

/-- How `console.error` / `console.info` print a string-or-undefined argument. -/
def display : Option JSString → JSString
  | none => js "undefined"
  | some s => s

/-- One line printed by `console.error` or `console.info`: the arguments
separated by spaces, then a line feed. -/
def consoleLine (parts : List JSString) : JSString :=
  joinWith (js " ") parts ++ [LF]

/-- Embedding of `console.error(...)`. -/
def consoleError (parts : List JSString) (w : World) : World :=
  { w with stderr := w.stderr ++ consoleLine parts }

/-- Embedding of `console.info(...)`, which writes to standard output. -/
def consoleInfo (parts : List JSString) (w : World) : World :=
  { w with stdout := w.stdout ++ consoleLine parts }

/-- The function held by `debug` (lines 23-24 and 173-181): nothing until
`main` installs the printer, then `console.error('debug:'.debug, msg)` with
the arguments joined by spaces. -/
def debug (X : Externals) (args : List JSString) (w : World) : World :=
  if w.debugEnabled then
    consoleError [stylize X.colorsEnabled BLUE_OPEN (js "debug:"), joinWith (js " ") args] w
  else w

/-! ## `fs` -/

/-- Source function `isFileSync` (lines 26-32). -/
def isFileSync (files : FileSystem) (p : Option JSString) : Bool :=
  match p with
  | none => false
  | some path =>
    match files path with
    | none => false
    | some (.file _) => true
    | some .directory => false

/-- Embedding of `fs.readFileSync(path, encoding)`. -/
def readFileSync (X : Externals) (files : FileSystem) (path : Option JSString)
    (encoding : JSString) : Except JSError JSString :=
  match path with
  | none => .error .ERR_INVALID_ARG_TYPE
  | some p =>
    if !X.isEncoding encoding then .error (.ERR_INVALID_ARG_VALUE encoding)
    else
      match files p with
      | none => .error (.ENOENT p)
      | some .directory => .error (.EISDIR p)
      | some (.file bytes) => .ok (X.decode encoding bytes)

/-- Source function `readJsonSync` (lines 34-36); the default of `encoding` is written out at
the call sites. -/
def readJsonSync (X : Externals) (files : FileSystem) (path : Option JSString)
    (encoding : JSString) : Except JSError JSString :=
  readFileSync X files path encoding

/-- Embedding of `fs.unlinkSync(path)`. -/
def unlinkSync (files : FileSystem) (path : Option JSString) : Except JSError FileSystem :=
  match path with
  | none => .error .ERR_INVALID_ARG_TYPE
  | some p =>
    match files p with
    | none => .error (.ENOENT p)
    | some .directory => .error (.EISDIR p)
    | some (.file _) => .ok (fun q => if q = p then none else files q)

/-- Embedding of `fs.writeFileSync(path, data, encoding)`. -/
def writeFileSync (X : Externals) (files : FileSystem) (path : Option JSString)
    (data encoding : JSString) : Except JSError FileSystem :=
  match path with
  | none => .error .ERR_INVALID_ARG_TYPE
  | some p =>
    if !X.isEncoding encoding then .error (.ERR_INVALID_ARG_VALUE encoding)
    else
      match files p with
      | some .directory => .error (.EISDIR p)
      | _ => .ok (fun q => if q = p then some (.file (X.encode encoding data)) else files q)

/-! ## The pipeline and the modes -/

/-- Source function `minify` (lines 38-61). -/
def minify (X : Externals) (raw : JSString) (color : Bool) (w : World) :
    Except JSError JSString × World :=
  let w := { w with minifyCalls := w.minifyCalls ++ [(raw, color)] }
  let raw := X.jsonminify raw
  let indent := w.cmd.indent
  let parsed : Except JSError JSString :=
    match X.JSON_parse raw with
    | .ok value => .ok (JSON_stringify value indent)
    | .error _ =>
      match X.jsonlint_parse raw with
      | .error e2 => .error e2
      | .ok _ => .ok []
  match parsed with
  | .error e => (.error e, w)
  | .ok output =>
    if color then (.ok (colorize X.colorsEnabled output), debug X [js "color on"] w)
    else (.ok output, debug X [js "color off"] w)

/-- Source function `stdin2stdout` (lines 68-83) together with the two handlers it installs:
every chunk is appended and traced, and at the end of input the whole text
goes through `minify` with colour on and is written out.  The function itself
returns 0 and leaves the process running. -/
def stdin2stdout (X : Externals) (w : World) : Except JSError Nat × World :=
  let text := w.stdin.foldl (fun acc chunk => acc ++ chunk) []
  let w := w.stdin.foldl (fun w chunk => debug X [chunk] w) w
  match minify X text true { w with stdin := [] } with
  | (.error e, w) => (.error e, w)
  | (.ok output, w) => (.ok 0, { w with stdout := w.stdout ++ output })

/-- Source function `file2stdout` (lines 88-103). -/
def file2stdout (X : Externals) (path : Option JSString) (w : World) :
    Except JSError Nat × World :=
  let w := if truthy path then { w with cmd := { w.cmd with src := path } } else w
  let cmdSrc := w.cmd.src
  if !isFileSync w.files cmdSrc then
    (.ok 2, consoleError [js "--src or -s file can not be read. --src:", display cmdSrc] w)
  else
    match readJsonSync X w.files cmdSrc (js "utf-8") with
    | .error e => (.error e, w)
    | .ok text =>
      match minify X text true w with
      | (.error e, w) => (.error e, w)
      | (.ok output, w) => (.ok 0, { w with stdout := w.stdout ++ output })

/-- Source function `file2file` (lines 108-140). -/
def file2file (X : Externals) (w : World) : Except JSError Nat × World :=
  let cmdSrc := w.cmd.src
  if !isFileSync w.files cmdSrc then
    (.ok 2, consoleError [js "--src or -s file can not be read. --src:", display cmdSrc] w)
  else
    let cmdOut := w.cmd.out
    let cmdEncode := w.cmd.encode
    match readJsonSync X w.files cmdSrc cmdEncode with
    | .error e => (.error e, w)
    | .ok text =>
      match minify X text false w with
      | (.error e, w) => (.error e, w)
      | (.ok output, w) =>
        let w := debug X [js "-- data start"] w
        let w := debug X [output] w
        let w := debug X [js "-- data end"] w
        let w :=
          if w.cmd.force then
            debug X [js "Overwrite remove output file. path:", display cmdOut] w
          else w
        match (if w.cmd.force then unlinkSync w.files cmdOut else .ok w.files) with
        | .error e => (.error e, w)
        | .ok files =>
          let w := { w with files := files }
          if isFileSync w.files cmdOut then
            (.ok 2, consoleError [js "--out or -o file already exists --out:", display cmdOut] w)
          else
            match writeFileSync X w.files cmdOut output cmdEncode with
            | .error e => (.error e, w)
            | .ok files =>
              (.ok 0, consoleInfo [js "output:", display cmdOut] { w with files := files })

/-- The branches of the chain in `main`; `file2stdout` carries the argument it
is called with (`cmd.args[0]` in the first branch, none in the third). -/
inductive Mode where
  | stdin2stdout
  | file2stdout (path : Option JSString)
  | file2file
  deriving DecidableEq, Repr

/-- The branch of `main` that is taken (lines 191-207): the conditions of the
chain, in its order. -/
def selectMode (args : List JSString) (cmd : Options) : Mode :=
  if 0 < args.length then .file2stdout args.head?
  else if truthy cmd.src && truthy cmd.out then .file2file
  else if truthy cmd.src then .file2stdout none
  else .stdin2stdout

/-- What `main` passes to `debug` when it has chosen its branch. -/
def selectMessage : Mode → JSString
  | .file2stdout (some _) => js "select file2stdout args"
  | .file2file => js "select file2file"
  | .file2stdout none => js "select file2stdout"
  | .stdin2stdout => js "select stdin2stdout"

/-- The mode function `main` calls in a branch. -/
def runMode (X : Externals) (mode : Mode) (w : World) : Except JSError Nat × World :=
  match mode with
  | .file2stdout path => file2stdout X path w
  | .file2file => file2file X w
  | .stdin2stdout => stdin2stdout X w

/-- Source function `main` (lines 144-208) after `cmd.parse`: the options and positional
arguments are those of the world.  The result is the status the process exits
with, or the exception that escapes. -/
def main (X : Externals) (w : World) : Except JSError Nat × World :=
  let w :=
    if w.cmd.debug then
      consoleInfo [stylize X.colorsEnabled GREEN_OPEN (js "info:"), js "debug mode."]
        { w with debugEnabled := true }
    else w
  let mode := selectMode w.args w.cmd
  runMode X mode (debug X [selectMessage mode] w)

/-! ## Reference libraries

The general theorems below hold for every `Externals`.  To run the program on
concrete texts a value of `Externals` is needed; `reference` is built from the
standards the libraries implement.  Error messages are placeholders. -/

/-- The whitespace of the JSON grammar (ECMA-404): space, tab, line feed,
carriage return. -/
def isJSONWhitespace (c : Nat) : Bool :=
  c == 0x20 || c == 0x09 || c == 0x0A || c == 0x0D

/-- What the class `\s` of a JavaScript regular expression matches (WhiteSpace
and LineTerminator of ECMA-262); the lexer of `jsonlint` skips `\s+`. -/
def isRegExpWhitespace (c : Nat) : Bool :=
  c == 0x09 || c == 0x0A || c == 0x0B || c == 0x0C || c == 0x0D || c == 0x20
    || c == 0xA0 || c == 0x1680 || (0x2000 ≤ c && c ≤ 0x200A) || c == 0x2028
    || c == 0x2029 || c == 0x202F || c == 0x205F || c == 0x3000 || c == 0xFEFF

/-- Where the minifier is in the text. -/
inductive MinifyState where
  | code
  | codeSlash
  | inString
  | inStringEscape
  | lineComment
  | blockComment
  | blockCommentStar
  deriving DecidableEq, Repr

/-- Modelled from the spec: the minifier (npm `jsonminify`) is not in the
repository.  The spec describes it as stripping C/C++-style comments and
insignificant whitespace from a JSON-like text, lexically and without
validating.  Outside strings and comments the JSON whitespace is dropped,
`//` opens a comment that runs to the end of the line and `/*` one that runs
to `*/`; a string runs from a quote to the next quote that is not escaped and
is copied as it is. -/
def jsonminifyModel : MinifyState → JSString → JSString
  | .codeSlash, [] => [0x2F]
  | _, [] => []
  | .code, c :: cs =>
    if c = QUOTE then c :: jsonminifyModel .inString cs
    else if c = 0x2F then jsonminifyModel .codeSlash cs
    else if isJSONWhitespace c then jsonminifyModel .code cs
    else c :: jsonminifyModel .code cs
  | .codeSlash, c :: cs =>
    if c = 0x2F then jsonminifyModel .lineComment cs
    else if c = 0x2A then jsonminifyModel .blockComment cs
    else if c = QUOTE then 0x2F :: c :: jsonminifyModel .inString cs
    else if isJSONWhitespace c then 0x2F :: jsonminifyModel .code cs
    else 0x2F :: c :: jsonminifyModel .code cs
  | .inString, c :: cs =>
    if c = QUOTE then c :: jsonminifyModel .code cs
    else if c = BACKSLASH then c :: jsonminifyModel .inStringEscape cs
    else c :: jsonminifyModel .inString cs
  | .inStringEscape, c :: cs => c :: jsonminifyModel .inString cs
  | .lineComment, c :: cs =>
    if c = 0x0A ∨ c = 0x0D then jsonminifyModel .code cs
    else jsonminifyModel .lineComment cs
  | .blockComment, c :: cs =>
    if c = 0x2A then jsonminifyModel .blockCommentStar cs
    else jsonminifyModel .blockComment cs
  | .blockCommentStar, c :: cs =>
    if c = 0x2F then jsonminifyModel .code cs
    else if c = 0x2A then jsonminifyModel .blockCommentStar cs
    else jsonminifyModel .blockComment cs

/-! ### A JSON parser (ECMA-404), with the whitespace class as a parameter -/

/-- Decimal digit code unit. -/
def isDigit (c : Nat) : Bool := 0x30 ≤ c && c ≤ 0x39

/-- Value of a hexadecimal digit code unit. -/
def hexValue (c : Nat) : Option Nat :=
  if 0x30 ≤ c ∧ c ≤ 0x39 then some (c - 0x30)
  else if 0x41 ≤ c ∧ c ≤ 0x46 then some (c - 0x41 + 10)
  else if 0x61 ≤ c ∧ c ≤ 0x66 then some (c - 0x61 + 10)
  else none

/-- Skips leading whitespace. -/
def skipWhitespace (ws : Nat → Bool) : JSString → JSString
  | [] => []
  | c :: cs => if ws c then skipWhitespace ws cs else c :: cs

/-- The characters of a string literal after its opening quote: gives the
string value and the text after the closing quote. -/
def parseStringBody : Nat → JSString → Option (JSString × JSString)
  | 0, _ => none
  | _ + 1, [] => none
  | fuel + 1, c :: cs =>
    if c = QUOTE then some ([], cs)
    else if c = BACKSLASH then
      match cs with
      | [] => none
      | e :: rest =>
        if e = 0x75 then
          match rest with
          | h1 :: h2 :: h3 :: h4 :: rest4 =>
            match hexValue h1, hexValue h2, hexValue h3, hexValue h4 with
            | some a, some b, some c2, some d =>
              (parseStringBody fuel rest4).map
                (fun r => ((a * 4096 + b * 256 + c2 * 16 + d) :: r.1, r.2))
            | _, _, _, _ => none
          | _ => none
        else
          let unit : Option Nat :=
            if e = 0x22 then some 0x22 else if e = 0x5C then some 0x5C
            else if e = 0x2F then some 0x2F else if e = 0x62 then some 0x08
            else if e = 0x66 then some 0x0C else if e = 0x6E then some 0x0A
            else if e = 0x72 then some 0x0D else if e = 0x74 then some 0x09
            else none
          match unit with
          | none => none
          | some u => (parseStringBody fuel rest).map (fun r => (u :: r.1, r.2))
    else if c < 0x20 then none
    else (parseStringBody fuel cs).map (fun r => (c :: r.1, r.2))

/-- Decimal value of a run of digit code units. -/
def digitsValue (ds : JSString) : Nat := ds.foldl (fun acc d => acc * 10 + (d - 0x30)) 0

/-- A digit code unit as a digit. -/
def toDigit (c : Nat) : Fin 10 := ⟨(c - 0x30) % 10, Nat.mod_lt _ (by decide)⟩

/-- The number a literal denotes, from its sign, integer digits, fraction
digits and exponent.  The literal is kept exactly: leading and trailing zeros
are removed from the digit string and the exponent is adjusted.  This is the
double the literal rounds to whenever it has at most 15 significant digits and
lies in the normal range. -/
def literalNumber (neg : Bool) (intDigits fracDigits : JSString) (exponent : Int) : JSNumber :=
  let all := intDigits ++ fracDigits
  let leading := (all.takeWhile (fun d => d == 0x30)).length
  let significant := ((all.dropWhile (fun d => d == 0x30)).reverse.dropWhile
    (fun d => d == 0x30)).reverse
  match significant with
  | [] => .zero
  | _ :: _ => .finite neg (significant.map toDigit) (intDigits.length + exponent - leading)

/-- A number literal at the head of the text: `-? int frac? exp?`. -/
def parseNumber (s : JSString) : Option (JSNumber × JSString) :=
  let (neg, s1) := match s with
    | 0x2D :: rest => (true, rest)
    | _ => (false, s)
  let intDigits := s1.takeWhile isDigit
  let s2 := s1.dropWhile isDigit
  if intDigits = [] ∨ (intDigits.length > 1 ∧ intDigits.head? = some 0x30) then none
  else
    let fraction : Option (JSString × JSString) :=
      match s2 with
      | 0x2E :: rest =>
        if rest.takeWhile isDigit = [] then none
        else some (rest.takeWhile isDigit, rest.dropWhile isDigit)
      | _ => some ([], s2)
    match fraction with
    | none => none
    | some (fracDigits, s3) =>
      let expPart : Option (Int × JSString) :=
        match s3 with
        | e :: rest =>
          if e = 0x65 ∨ e = 0x45 then
            let (negExp, rest1) := match rest with
              | 0x2D :: r => (true, r)
              | 0x2B :: r => (false, r)
              | _ => (false, rest)
            if rest1.takeWhile isDigit = [] then none
            else
              let v : Int := digitsValue (rest1.takeWhile isDigit)
              some (if negExp then -v else v, rest1.dropWhile isDigit)
          else some (0, s3)
        | [] => some (0, s3)
      match expPart with
      | none => none
      | some (exponent, s4) => some (literalNumber neg intDigits fracDigits exponent, s4)

/-- The array index a property key is, if it is one: a canonical decimal
numeral below `2^32 - 1`. -/
def arrayIndex (key : JSString) : Option Nat :=
  if key ≠ [] ∧ key.all isDigit ∧ (key.length = 1 ∨ key.head? ≠ some 0x30)
      ∧ digitsValue key < 4294967295 then some (digitsValue key)
  else none

/-- The effect of `CreateDataProperty` on the property list: a key already present keeps its
place and takes the new value, a new key goes to the end. -/
def setProperty (key : JSString) (value : JSONValue) :
    List (JSString × JSONValue) → List (JSString × JSONValue)
  | [] => [(key, value)]
  | (k, v) :: rest =>
    if k = key then (k, value) :: rest else (k, v) :: setProperty key value rest

/-- Insertion of an indexed member into a list sorted by index. -/
def insertByIndex (i : Nat) (m : JSString × JSONValue) :
    List (Nat × (JSString × JSONValue)) → List (Nat × (JSString × JSONValue))
  | [] => [(i, m)]
  | (j, n) :: rest =>
    if i < j then (i, m) :: (j, n) :: rest else (j, n) :: insertByIndex i m rest

/-- The order in which an object lists its properties: array indices in
ascending order, then the other keys in the order of their creation. -/
def propertyOrder (members : List (JSString × JSONValue)) : List (JSString × JSONValue) :=
  let indexed := members.foldl
    (fun acc m => match arrayIndex m.1 with
      | some i => insertByIndex i m acc
      | none => acc) []
  indexed.map (fun im => im.2) ++ members.filter (fun m => (arrayIndex m.1).isNone)

/-- Whether the text starts with the given word; gives the rest. -/
def stripWord (word : JSString) (s : JSString) : Option JSString :=
  if word.isPrefixOf s then some (s.drop word.length) else none

mutual
/-- A JSON value at the head of the text (after whitespace). -/
def parseValue (ws : Nat → Bool) : Nat → JSString → Option (JSONValue × JSString)
  | 0, _ => none
  | fuel + 1, s =>
    match skipWhitespace ws s with
    | [] => none
    | c :: cs =>
      if c = 0x7B then
        match skipWhitespace ws cs with
        | 0x7D :: rest => some (.object [], rest)
        | _ => parseMembers ws fuel cs []
      else if c = 0x5B then
        match skipWhitespace ws cs with
        | 0x5D :: rest => some (.array [], rest)
        | _ => parseElements ws fuel cs []
      else if c = QUOTE then
        (parseStringBody (cs.length + 1) cs).map (fun r => (.string r.1, r.2))
      else if c = 0x74 then (stripWord (js "true") (c :: cs)).map (fun r => (.bool true, r))
      else if c = 0x66 then (stripWord (js "false") (c :: cs)).map (fun r => (.bool false, r))
      else if c = 0x6E then (stripWord (js "null") (c :: cs)).map (fun r => (.null, r))
      else (parseNumber (c :: cs)).map (fun r => (.number r.1, r.2))
/-- The elements of an array after `[`, up to and including `]`. -/
def parseElements (ws : Nat → Bool) :
    Nat → JSString → List JSONValue → Option (JSONValue × JSString)
  | 0, _, _ => none
  | fuel + 1, s, acc =>
    match parseValue ws fuel s with
    | none => none
    | some (v, rest) =>
      match skipWhitespace ws rest with
      | 0x2C :: rest2 => parseElements ws fuel rest2 (acc ++ [v])
      | 0x5D :: rest2 => some (.array (acc ++ [v]), rest2)
      | _ => none
/-- The members of an object after `{`, up to and including `}`. -/
def parseMembers (ws : Nat → Bool) :
    Nat → JSString → List (JSString × JSONValue) → Option (JSONValue × JSString)
  | 0, _, _ => none
  | fuel + 1, s, acc =>
    match skipWhitespace ws s with
    | 0x22 :: cs =>
      match parseStringBody (cs.length + 1) cs with
      | none => none
      | some (key, rest) =>
        match skipWhitespace ws rest with
        | 0x3A :: rest2 =>
          match parseValue ws fuel rest2 with
          | none => none
          | some (v, rest3) =>
            match skipWhitespace ws rest3 with
            | 0x2C :: rest4 => parseMembers ws fuel rest4 (setProperty key v acc)
            | 0x7D :: rest4 => some (.object (propertyOrder (setProperty key v acc)), rest4)
            | _ => none
        | _ => none
    | _ => none
end

/-- A whole JSON text: one value, whitespace around it, nothing else.  The
fuel covers every nested call, each of which reads at least one unit. -/
def parseJSONText (ws : Nat → Bool) (text : JSString) : Option JSONValue :=
  match parseValue ws (2 * text.length + 2) text with
  | some (v, rest) => if skipWhitespace ws rest = [] then some v else none
  | none => none

/-- Modelled from the spec: `JSON.parse` belongs to the runtime, not to the
repository.  It parses the JSON grammar with the JSON whitespace and throws a
`SyntaxError` otherwise. -/
def referenceJSONParse (text : JSString) : Except JSError JSONValue :=
  match parseJSONText isJSONWhitespace text with
  | some v => .ok v
  | none => .error (.thrown (js "SyntaxError") (js "Unexpected token in JSON"))

/-- Modelled from the spec: `jsonlint.parse` (npm `jsonlint`) is not in the
repository.  Its grammar is the JSON grammar; its lexer skips `\s+`, which is
more than the JSON whitespace.  It throws an `Error` with a located
message. -/
def referenceJsonlintParse (text : JSString) : Except JSError JSONValue :=
  match parseJSONText isRegExpWhitespace text with
  | some v => .ok v
  | none => .error (.thrown (js "Error") (js "Parse error on line 1"))

/-! ### Text encodings of `Buffer` -/

/-- A UTF-8 continuation byte. -/
def isContinuation (b : Nat) : Bool := 0x80 ≤ b && b ≤ 0xBF

/-- The UTF-16 code units of a code point. -/
def utf16Units (cp : Nat) : JSString :=
  if cp < 0x10000 then [cp]
  else [0xD800 + (cp - 0x10000) / 0x400, 0xDC00 + (cp - 0x10000) % 0x400]

/-- UTF-8 decoding as the runtime does it: well-formed sequences give their
code point, and every maximal ill-formed part gives one U+FFFD. -/
def utf8Decode : Nat → List Nat → JSString
  | 0, _ => []
  | _ + 1, [] => []
  | fuel + 1, b0 :: rest =>
    if b0 < 0x80 then b0 :: utf8Decode fuel rest
    else if 0xC2 ≤ b0 ∧ b0 ≤ 0xDF then
      match rest with
      | b1 :: rest1 =>
        if isContinuation b1 then
          ((b0 - 0xC0) * 0x40 + (b1 - 0x80)) :: utf8Decode fuel rest1
        else 0xFFFD :: utf8Decode fuel rest
      | [] => [0xFFFD]
    else if 0xE0 ≤ b0 ∧ b0 ≤ 0xEF then
      match rest with
      | b1 :: rest1 =>
        if (if b0 = 0xE0 then 0xA0 else 0x80) ≤ b1 ∧ b1 ≤ (if b0 = 0xED then 0x9F else 0xBF) then
          match rest1 with
          | b2 :: rest2 =>
            if isContinuation b2 then
              ((b0 - 0xE0) * 0x1000 + (b1 - 0x80) * 0x40 + (b2 - 0x80)) :: utf8Decode fuel rest2
            else 0xFFFD :: utf8Decode fuel rest1
          | [] => [0xFFFD]
        else 0xFFFD :: utf8Decode fuel rest
      | [] => [0xFFFD]
    else if 0xF0 ≤ b0 ∧ b0 ≤ 0xF4 then
      match rest with
      | b1 :: rest1 =>
        if (if b0 = 0xF0 then 0x90 else 0x80) ≤ b1 ∧ b1 ≤ (if b0 = 0xF4 then 0x8F else 0xBF) then
          match rest1 with
          | b2 :: rest2 =>
            if isContinuation b2 then
              match rest2 with
              | b3 :: rest3 =>
                if isContinuation b3 then
                  utf16Units ((b0 - 0xF0) * 0x40000 + (b1 - 0x80) * 0x1000
                      + (b2 - 0x80) * 0x40 + (b3 - 0x80))
                    ++ utf8Decode fuel rest3
                else 0xFFFD :: utf8Decode fuel rest2
              | [] => [0xFFFD]
            else 0xFFFD :: utf8Decode fuel rest1
          | [] => [0xFFFD]
        else 0xFFFD :: utf8Decode fuel rest
      | [] => [0xFFFD]
    else 0xFFFD :: utf8Decode fuel rest

/-- The UTF-8 bytes of a code point. -/
def utf8Bytes (cp : Nat) : List Nat :=
  if cp < 0x80 then [cp]
  else if cp < 0x800 then [0xC0 + cp / 0x40, 0x80 + cp % 0x40]
  else if cp < 0x10000 then [0xE0 + cp / 0x1000, 0x80 + cp / 0x40 % 0x40, 0x80 + cp % 0x40]
  else [0xF0 + cp / 0x40000, 0x80 + cp / 0x1000 % 0x40, 0x80 + cp / 0x40 % 0x40,
    0x80 + cp % 0x40]

/-- UTF-8 encoding of a string: a surrogate pair is one code point, a lone
surrogate is written as U+FFFD.  The flag says that the unit at hand is the
second half of a pair already written. -/
def utf8Encode : Bool → JSString → List Nat
  | _, [] => []
  | true, _ :: rest => utf8Encode false rest
  | false, c :: rest =>
    if isLeadingSurrogate c ∧ nextIsTrailing rest then
      utf8Bytes (0x10000 + (c - 0xD800) * 0x400 + (rest.headD 0xDC00 - 0xDC00))
        ++ utf8Encode true rest
    else if isLeadingSurrogate c ∨ isTrailingSurrogate c then
      utf8Bytes 0xFFFD ++ utf8Encode false rest
    else utf8Bytes c ++ utf8Encode false rest

/-- The encoding names the reference codecs know. -/
def referenceIsEncoding (name : JSString) : Bool :=
  name = js "utf8" ∨ name = js "utf-8" ∨ name = js "latin1" ∨ name = js "binary"

/-- Modelled from the spec: `buffer.toString(encoding)` belongs to the
runtime.  `latin1` (also called `binary`) reads every byte as the code unit of
the same value; the other names stand for UTF-8. -/
def referenceDecode (name : JSString) (bytes : List Nat) : JSString :=
  if name = js "latin1" ∨ name = js "binary" then bytes
  else utf8Decode bytes.length bytes

/-- Modelled from the spec: `Buffer.from(text, encoding)` belongs to the
runtime.  `latin1` keeps the low byte of every code unit; the other names stand
for UTF-8. -/
def referenceEncode (name : JSString) (text : JSString) : List Nat :=
  if name = js "latin1" ∨ name = js "binary" then text.map (fun c => c % 256)
  else utf8Encode false text

/-- The reference libraries, with colour support on. -/
def reference : Externals where
  jsonminify := jsonminifyModel .code
  JSON_parse := referenceJSONParse
  jsonlint_parse := referenceJsonlintParse
  colorsEnabled := true
  isEncoding := referenceIsEncoding
  decode := referenceDecode
  encode := referenceEncode

/-- A world with an empty file system and the default options of the command
line (`--indent` four spaces, `--encode utf-8`). -/
def emptyWorld : World where
  files := fun _ => none
  stdin := []
  stdout := []
  stderr := []
  cmd := { debug := false, color := false, indent := js "    ", src := none, out := none,
           encode := js "utf-8", force := false }
  args := []
  debugEnabled := false
  minifyCalls := []

/-! ## Definitions used to state the properties: sample inputs, colour removal, layout -/

/-- The options of `mjson in.json --out out.json`. -/
def positionalWithOut : Options :=
  { emptyWorld.cmd with out := some (js "out.json") }

/-- The world of `mjson in.json --out out.json` in an empty file system. -/
def positionalWithOutWorld : World :=
  { emptyWorld with args := [js "in.json"], cmd := positionalWithOut }

/-- The text `{"a":1 }` whose blank is a no-break space U+00A0. -/
def noBreakSpaceText : JSString := js "\x7b\"a\":1" ++ [0xA0] ++ js "\x7d"

/-- The path `file2stdout` looks at: its argument when that is a non-empty
string, the `--src` option otherwise. -/
def resolvedSource (path : Option JSString) (w : World) : Option JSString :=
  if truthy path then path else w.cmd.src

/-- Deletion of every occurrence of `pat`, scanning from the left: at an
occurrence its units are skipped (the counter says how many are still to be
skipped), elsewhere the unit is kept. -/
def removeAllAux (pat : JSString) : Nat → JSString → JSString
  | _, [] => []
  | k + 1, _ :: cs => removeAllAux pat k cs
  | 0, c :: cs =>
    if pat.isPrefixOf (c :: cs) && !pat.isEmpty then removeAllAux pat (pat.length - 1) cs
    else c :: removeAllAux pat 0 cs

/-- The text without the occurrences of `pat`. -/
def removeAll (pat : JSString) (s : JSString) : JSString := removeAllAux pat 0 s

/-- The text without the green opening codes and without the colour closing
codes. -/
def stripColour (s : JSString) : JSString := removeAll COLOR_RESET (removeAll GREEN_OPEN s)

/-- The world of `mjson --indent <ESC>`: the indent is the escape character. -/
def escapeIndentWorld : World :=
  { emptyWorld with cmd := { emptyWorld.cmd with indent := [ESC] } }

/-- A piece of a pretty-printed text in the words of the specification: a
token, the start of a new line at a nesting depth, or the blank after the
colon of a member. -/
inductive Piece where
  | text (t : JSString)
  | lineBreak (depth : Nat)
  | blank
  deriving DecidableEq, Repr

/-- The indentation at a depth: `depth` copies of the unit. -/
def indentation (unit : JSString) (depth : Nat) : JSString :=
  (List.replicate depth unit).flatten

/-- The text of one piece.  With a non-empty unit a line break is a line feed
followed by `depth` copies of the unit; with the empty unit the text is on one
line: there are no line breaks and no blanks. -/
def pieceText (unit : JSString) : Piece → JSString
  | .text t => t
  | .lineBreak depth => if unit = [] then [] else LF :: indentation unit depth
  | .blank => if unit = [] then [] else js " "

/-- The text of a list of pieces. -/
def layout (unit : JSString) : List Piece → JSString
  | [] => []
  | p :: ps => pieceText unit p ++ layout unit ps

/-- The items of a container, each on a line of its own at the given depth,
with a comma after every item but the last. -/
def separated (depth : Nat) : List (List Piece) → List Piece
  | [] => []
  | [item] => .lineBreak depth :: item
  | item :: next :: rest =>
    (.lineBreak depth :: item) ++ .text (js ",") :: separated depth (next :: rest)

/-- A container at nesting depth `depth`: the two brackets alone when it is
empty; otherwise the opening bracket, the items one level deeper, and the
closing bracket on a line at the depth of the container. -/
def bracketed (opening closing : Nat) (depth : Nat) (items : List (List Piece)) : List Piece :=
  match items with
  | [] => [.text [opening, closing]]
  | _ :: _ =>
    .text [opening] :: (separated (depth + 1) items ++ [.lineBreak depth, .text [closing]])

mutual
/-- The pieces of the pretty-printed form of a value that sits at nesting depth
`depth`, following the specification. -/
def valuePieces (depth : Nat) : JSONValue → List Piece
  | .null => [.text (js "null")]
  | .bool true => [.text (js "true")]
  | .bool false => [.text (js "false")]
  | .string s => [.text (QuoteJSONString s)]
  | .number .nonFinite => [.text (js "null")]
  | .number x => [.text (numberToString x)]
  | .array elements => bracketed 0x5B 0x5D depth (elementPieces (depth + 1) elements)
  | .object members => bracketed 0x7B 0x7D depth (memberPieces (depth + 1) members)
/-- The pieces of every element of an array. -/
def elementPieces (depth : Nat) : List JSONValue → List (List Piece)
  | [] => []
  | v :: vs => valuePieces depth v :: elementPieces depth vs
/-- The pieces of every member of an object: quoted key, colon, blank, value. -/
def memberPieces (depth : Nat) : List (JSString × JSONValue) → List (List Piece)
  | [] => []
  | (key, v) :: ms =>
    (.text (QuoteJSONString key) :: .text (js ":") :: .blank :: valuePieces depth v)
      :: memberPieces depth ms
end

/-- Every token of the pretty-printed form is free of line feeds; so a line
of the text starts where a line break piece stands (or inside the indentation
unit, if that holds a line feed itself). -/
def tokenOnOneLine : Piece → Prop
  | .text t => LF ∉ t
  | .lineBreak _ => True
  | .blank => True

/-- The world of `mjson --indent "  "` (two spaces). -/
def twoSpaceWorld : World :=
  { emptyWorld with cmd := { emptyWorld.cmd with indent := js "  " } }

/-- The world of `mjson --indent ""`. -/
def emptyIndentWorld : World :=
  { emptyWorld with cmd := { emptyWorld.cmd with indent := [] } }

/-- The world of `mjson --indent "           "` (eleven spaces). -/
def elevenSpaceWorld : World :=
  { emptyWorld with cmd := { emptyWorld.cmd with indent := List.replicate 11 0x20 } }

/-- A file system given by a table of paths. -/
def tableFiles (table : List (JSString × FileNode)) : FileSystem :=
  fun path => table.lookup path

/-- The world of `mjson --src in.json --out out.json` where `in.json` holds
the invalid text `{"a":}` and `out.json` holds `old`. -/
def collisionWorld : World :=
  { emptyWorld with
    files := tableFiles [(js "in.json", .file (js "\x7b\"a\":\x7d")),
      (js "out.json", .file (js "old"))]
    cmd := { emptyWorld.cmd with src := some (js "in.json"), out := some (js "out.json") } }

/-- The world of `mjson --src in.json --out out.json` where `in.json` holds
`{"a":1}` and `out.json` holds `old`. -/
def validCollisionWorld : World :=
  { collisionWorld with
    files := tableFiles [(js "in.json", .file (js "\x7b\"a\":1\x7d")),
      (js "out.json", .file (js "old"))] }

/-- The world of `mjson --src in.json --out out.json --force` where `in.json`
holds `{"a":1}` and nothing is at `out.json`. -/
def forceWorld : World :=
  { emptyWorld with
    files := tableFiles [(js "in.json", .file (js "\x7b\"a\":1\x7d"))]
    cmd := { collisionWorld.cmd with force := true } }

/-- The world of `mjson --encode latin1 in.json` where `in.json` holds the
three bytes `22 E9 22`: the JSON string `"é"` in Latin-1. -/
def latin1World : World :=
  { emptyWorld with
    files := tableFiles [(js "in.json", .file [0x22, 0xE9, 0x22])]
    cmd := { emptyWorld.cmd with encode := js "latin1" } }

/-! # Theorems -/

/-! ## C1: the branch `main` takes -/

/-- C1 (as stated, refuted): with the positional path `in.json` and
`--out out.json` the first branch of `main` is taken, which calls
`file2stdout` with the positional path; `file2file` is not what runs, and
`main` does what `file2stdout` does. -/
theorem C1_positional_with_out_runs_file2stdout :
    truthy positionalWithOut.out = true
      ∧ selectMode [js "in.json"] positionalWithOut = Mode.file2stdout (some (js "in.json"))
      ∧ selectMode [js "in.json"] positionalWithOut ≠ Mode.file2file
      ∧ main reference positionalWithOutWorld
          = file2stdout reference (some (js "in.json")) positionalWithOutWorld := by
  refine ⟨by decide, by decide, by decide, rfl⟩

/-- C1 (amended): `main` runs `file2file` exactly when there is no positional
argument and both `--src` and `--out` hold a non-empty path; with a positional
argument it runs `file2stdout` on that argument whatever `--out` is. -/
theorem C1_mode_selection (args : List JSString) (cmd : Options) :
    (selectMode args cmd = Mode.file2file ↔
        args = [] ∧ truthy cmd.src = true ∧ truthy cmd.out = true)
      ∧ (args ≠ [] → selectMode args cmd = Mode.file2stdout args.head?) := by
  constructor
  · cases args with
    | nil =>
      cases hs : truthy cmd.src <;> cases ho : truthy cmd.out <;>
        simp [selectMode, hs, ho]
    | cons a rest => simp [selectMode]
  · intro h
    cases args with
    | nil => exact absurd rfl h
    | cons a rest => simp [selectMode]

/-- C1 (witness): `mjson --src in.json --out out.json` runs `file2file`, and
`mjson in.json --out out.json` runs `file2stdout`. -/
theorem C1_mode_selection_witness :
    selectMode [] { positionalWithOut with src := some (js "in.json") } = Mode.file2file
      ∧ selectMode [js "in.json"] positionalWithOut
          = Mode.file2stdout (some (js "in.json")) :=
  ⟨(C1_mode_selection [] { positionalWithOut with src := some (js "in.json") }).1.2
      ⟨rfl, by decide, by decide⟩,
    (C1_mode_selection [js "in.json"] positionalWithOut).2 (by decide)⟩

/-! ## C2: `minify` on text the primary parser rejects -/

/-- When `JSON.parse` rejects the minified text and `jsonlint.parse` rejects
it too, `minify` throws the error of `jsonlint.parse`, whatever the colour
argument. -/
theorem minify_throws_jsonlint_error (X : Externals) (raw : JSString) (color : Bool)
    (w : World) (e1 e2 : JSError)
    (h1 : X.JSON_parse (X.jsonminify raw) = .error e1)
    (h2 : X.jsonlint_parse (X.jsonminify raw) = .error e2) :
    (minify X raw color w).1 = .error e2 := by
  simp [minify, h1, h2]

/-- When `JSON.parse` rejects the minified text and `jsonlint.parse` accepts
it, `minify` returns the empty string normally, whatever the colour
argument. -/
theorem minify_returns_empty_when_jsonlint_accepts (X : Externals) (raw : JSString)
    (color : Bool) (w : World) (e1 : JSError) (v : JSONValue)
    (h1 : X.JSON_parse (X.jsonminify raw) = .error e1)
    (h2 : X.jsonlint_parse (X.jsonminify raw) = .ok v) :
    (minify X raw color w).1 = .ok [] := by
  cases color <;> simp [minify, h1, h2, colorize, replaceLoop]

/-- C2 (the code at the failing input): the text `{"a":1 }` with a no-break
space before the brace is rejected by `JSON.parse` and accepted by
`jsonlint.parse`; `minify` returns the empty string instead of throwing, with
colour on and with colour off. -/
theorem C2_minify_returns_empty_on_rejected_text :
    (∃ e1, reference.JSON_parse (reference.jsonminify noBreakSpaceText) = .error e1)
      ∧ (minify reference noBreakSpaceText true emptyWorld).1 = .ok []
      ∧ (minify reference noBreakSpaceText false emptyWorld).1 = .ok [] :=
  ⟨⟨_, rfl⟩,
    minify_returns_empty_when_jsonlint_accepts reference noBreakSpaceText true emptyWorld
      _ _ rfl rfl,
    minify_returns_empty_when_jsonlint_accepts reference noBreakSpaceText false emptyWorld
      _ _ rfl rfl⟩

/-! ## C5: `file2stdout` on a missing source -/

/-- C5: when the source path (positional argument or `--src`) does not name a
regular file, `file2stdout` returns status 2, writes nothing to standard
output, does not call `minify` and leaves the file system as it was. -/
theorem C5_file2stdout_missing_source (X : Externals) (path : Option JSString) (w : World)
    (h : isFileSync w.files (resolvedSource path w) = false) :
    (file2stdout X path w).1 = .ok 2
      ∧ (file2stdout X path w).2.stdout = w.stdout
      ∧ (file2stdout X path w).2.minifyCalls = w.minifyCalls
      ∧ (file2stdout X path w).2.files = w.files := by
  unfold resolvedSource at h
  cases hp : truthy path <;> simp [hp] at h <;> simp [file2stdout, hp, h, consoleError]

/-- C5 (witness): in the empty file system `mjson missing.json` and
`mjson --src missing.json` both return 2 and print nothing. -/
theorem C5_file2stdout_missing_source_witness :
    ((file2stdout reference (some (js "missing.json")) emptyWorld).1 = .ok 2
      ∧ (file2stdout reference (some (js "missing.json")) emptyWorld).2.stdout = []
      ∧ (file2stdout reference (some (js "missing.json")) emptyWorld).2.minifyCalls = []
      ∧ (file2stdout reference (some (js "missing.json")) emptyWorld).2.files
          = emptyWorld.files) :=
  C5_file2stdout_missing_source reference (some (js "missing.json")) emptyWorld rfl

/-! ## The rendered text holds no escape character -/

theorem hexDigit_ge (d : Nat) : 0x30 ≤ hexDigit d := by
  unfold hexDigit
  split <;> omega

theorem unicodeEscape_ge (c : Nat) : ∀ u ∈ unicodeEscape c, 0x20 ≤ u := by
  have h1 := hexDigit_ge (c / 4096 % 16)
  have h2 := hexDigit_ge (c / 256 % 16)
  have h3 := hexDigit_ge (c / 16 % 16)
  have h4 := hexDigit_ge (c % 16)
  intro u hu
  simp only [unicodeEscape, BACKSLASH, List.mem_cons, List.mem_singleton, List.not_mem_nil,
    or_false] at hu
  rcases hu with rfl | rfl | rfl | rfl | rfl | rfl <;> omega

theorem quoteUnit_ge (c : Nat) : ∀ u ∈ quoteUnit c, 0x20 ≤ u := by
  have hb : ∀ u ∈ js "\\b", 0x20 ≤ u := by decide
  have ht : ∀ u ∈ js "\\t", 0x20 ≤ u := by decide
  have hn : ∀ u ∈ js "\\n", 0x20 ≤ u := by decide
  have hf : ∀ u ∈ js "\\f", 0x20 ≤ u := by decide
  have hr : ∀ u ∈ js "\\r", 0x20 ≤ u := by decide
  have hq : ∀ u ∈ js "\\\"", 0x20 ≤ u := by decide
  have hbs : ∀ u ∈ js "\\\\", 0x20 ≤ u := by decide
  intro u hu
  unfold quoteUnit at hu
  split_ifs at hu with h1 h2 h3 h4 h5 h6 h7 h8
  · exact hb u hu
  · exact ht u hu
  · exact hn u hu
  · exact hf u hu
  · exact hr u hu
  · exact hq u hu
  · exact hbs u hu
  · exact unicodeEscape_ge c u hu
  · simp only [not_or, not_lt] at h8
    rw [List.mem_singleton.1 hu]
    exact h8.1

theorem quoteBodyAux_ge (s : JSString) :
    ∀ flag : Bool, (flag = true → nextIsTrailing s = true) →
      ∀ u ∈ quoteBodyAux flag s, 0x20 ≤ u := by
  induction s with
  | nil => intro flag _ u hu; cases flag <;> simp [quoteBodyAux] at hu
  | cons c rest ih =>
    intro flag hflag u hu
    cases flag with
    | true =>
      have hc : isTrailingSurrogate c = true := by simpa [nextIsTrailing] using hflag
      simp only [isTrailingSurrogate, Bool.and_eq_true, decide_eq_true_eq] at hc
      simp only [quoteBodyAux, List.mem_cons] at hu
      rcases hu with rfl | hu
      · omega
      · exact ih false (by simp) u hu
    | false =>
      simp only [quoteBodyAux] at hu
      split_ifs at hu with h
      · have hc := h.1
        simp only [isLeadingSurrogate, Bool.and_eq_true, decide_eq_true_eq] at hc
        rcases List.mem_cons.1 hu with rfl | hu
        · omega
        · exact ih true (fun _ => h.2) u hu
      · rcases List.mem_append.1 hu with hu | hu
        · exact quoteUnit_ge c u hu
        · exact ih false (by simp) u hu

theorem QuoteJSONString_ge (s : JSString) : ∀ u ∈ QuoteJSONString s, 0x20 ≤ u := by
  intro u hu
  simp only [QuoteJSONString, quoteBody, List.mem_cons, List.mem_append, List.mem_singleton,
    List.not_mem_nil, or_false] at hu
  rcases hu with rfl | hu | rfl
  · decide
  · exact quoteBodyAux_ge s false (by simp) u hu
  · decide

theorem esc_not_mem_QuoteJSONString (s : JSString) : ESC ∉ QuoteJSONString s := by
  intro h
  have := QuoteJSONString_ge s ESC h
  simp [ESC] at this

theorem decimalDigitsAux_ge (fuel : Nat) :
    ∀ (m : Nat) (acc : List Nat), (∀ c ∈ acc, 0x2B ≤ c) →
      ∀ c ∈ decimalDigitsAux fuel m acc, 0x2B ≤ c := by
  induction fuel with
  | zero => intro m acc hacc c hc; exact hacc c (by simpa [decimalDigitsAux] using hc)
  | succ fuel ih =>
    intro m acc hacc c hc
    simp only [decimalDigitsAux] at hc
    split_ifs at hc with h
    · rcases List.mem_cons.1 hc with rfl | hc
      · omega
      · exact hacc c hc
    · refine ih (m / 10) _ ?_ c hc
      intro d hd
      rcases List.mem_cons.1 hd with rfl | hd
      · omega
      · exact hacc d hd

theorem exponentText_ge (e : Int) : ∀ c ∈ exponentText e, 0x2B ≤ c := by
  have he : ∀ c ∈ js "e", 0x2B ≤ c := by decide
  have hp : ∀ c ∈ js "+", 0x2B ≤ c := by decide
  have hm : ∀ c ∈ js "-", 0x2B ≤ c := by decide
  intro c hc
  simp only [exponentText, List.mem_append] at hc
  rcases hc with (hc | hc) | hc
  · exact he c hc
  · split_ifs at hc
    · exact hp c hc
    · exact hm c hc
  · exact decimalDigitsAux_ge _ _ [] (by simp) c hc

theorem digitsToString_ge (digits : JSString) (n : Int) (hdig : ∀ c ∈ digits, 0x2B ≤ c) :
    ∀ c ∈ digitsToString digits n, 0x2B ≤ c := by
  have hdot : ∀ c ∈ js ".", 0x2B ≤ c := by decide
  have hzero : ∀ c ∈ js "0.", 0x2B ≤ c := by decide
  have hexp := exponentText_ge (n - 1)
  intro c hc
  simp only [digitsToString] at hc
  split_ifs at hc with h1 h2 h3
  · rcases List.mem_append.1 hc with hc | hc
    · exact hdig c hc
    · rw [List.eq_of_mem_replicate hc]; decide
  · simp only [List.mem_append] at hc
    rcases hc with (hc | hc) | hc
    · exact hdig c (List.mem_of_mem_take hc)
    · exact hdot c hc
    · exact hdig c (List.mem_of_mem_drop hc)
  · simp only [List.mem_append] at hc
    rcases hc with (hc | hc) | hc
    · exact hzero c hc
    · rw [List.eq_of_mem_replicate hc]; decide
    · exact hdig c hc
  · match digits, hdig, hc with
    | [], _, hc => exact hexp c hc
    | [d], hdig, hc =>
      rcases List.mem_cons.1 hc with rfl | hc
      · exact hdig _ (by simp)
      · exact hexp c hc
    | d :: e :: rest, hdig, hc =>
      simp only [List.mem_cons, List.mem_append] at hc
      rcases hc with rfl | (hc | hc | hc) | hc
      · exact hdig _ (by simp)
      · exact hdot c hc
      · rw [hc]; exact hdig _ (by simp)
      · exact hdig c (by simp [hc])
      · exact hexp c hc

theorem positiveToString_ge (ds : List (Fin 10)) (n : Int) :
    ∀ c ∈ positiveToString ds n, 0x2B ≤ c := by
  apply digitsToString_ge
  intro c hc
  obtain ⟨d, _, rfl⟩ := List.mem_map.1 hc
  simp only [digitUnit]; omega

theorem numberToString_ge (x : JSNumber) : ∀ c ∈ numberToString x, 0x2B ≤ c := by
  cases x with
  | nonFinite => decide
  | zero => decide
  | finite neg ds n =>
    intro c hc
    simp only [numberToString] at hc
    rcases List.mem_append.1 hc with hc | hc
    · have hm : ∀ c ∈ js "-", 0x2B ≤ c := by decide
      cases neg
      · simp at hc
      · exact hm c hc
    · exact positiveToString_ge ds n c hc

theorem esc_not_mem_numberToString (x : JSNumber) : ESC ∉ numberToString x := by
  intro h
  have := numberToString_ge x ESC h
  simp [ESC] at this

theorem esc_not_mem_joinWith (sep : JSString) (hsep : ESC ∉ sep) :
    ∀ items : List JSString, (∀ x ∈ items, ESC ∉ x) → ESC ∉ joinWith sep items
  | [], _ => by simp [joinWith]
  | [x], h => by simpa [joinWith] using h x (by simp)
  | x :: y :: rest, h => by
    have hx := h x (by simp)
    have ih := esc_not_mem_joinWith sep hsep (y :: rest)
      (fun z hz => h z (List.mem_cons_of_mem _ hz))
    simp only [joinWith, List.mem_append, not_or]
    exact ⟨⟨hx, hsep⟩, ih⟩

theorem esc_not_mem_wrapItems (opening closing : Nat) (gap stepback indent : JSString)
    (items : List JSString) (ho : ESC ≠ opening) (hc : ESC ≠ closing)
    (hs : ESC ∉ stepback) (hi : ESC ∉ indent) (hitems : ∀ x ∈ items, ESC ∉ x) :
    ESC ∉ wrapItems opening closing gap stepback indent items := by
  have hlf : ESC ≠ LF := by decide
  have hcomma : ESC ∉ js "," := by decide
  cases items with
  | nil => simp [wrapItems, ho, hc]
  | cons x rest =>
    simp only [wrapItems]
    split_ifs with hgap
    · have hj := esc_not_mem_joinWith (js ",") hcomma (x :: rest) hitems
      simp only [List.mem_cons, List.mem_append, List.mem_singleton, not_or]
      exact ⟨ho, hj, hc, by simp⟩
    · have hsep : ESC ∉ js "," ++ LF :: indent := by
        simp only [List.mem_append, List.mem_cons, not_or]
        exact ⟨hcomma, hlf, hi⟩
      have hj := esc_not_mem_joinWith _ hsep (x :: rest) hitems
      simp only [List.mem_cons, List.mem_append, List.mem_singleton, not_or]
      exact ⟨ho, ⟨⟨⟨hlf, hi⟩, hj⟩, hlf, hs⟩, hc, by simp⟩

mutual
theorem esc_not_mem_SerializeJSONProperty (gap : JSString) (hgap : ESC ∉ gap) :
    ∀ (v : JSONValue) (indent : JSString), ESC ∉ indent →
      ESC ∉ SerializeJSONProperty gap indent v
  | .null, _, _ => by simp only [SerializeJSONProperty]; decide
  | .bool true, _, _ => by simp only [SerializeJSONProperty]; decide
  | .bool false, _, _ => by simp only [SerializeJSONProperty]; decide
  | .string s, _, _ => by
    simp only [SerializeJSONProperty]; exact esc_not_mem_QuoteJSONString s
  | .number .nonFinite, _, _ => by simp only [SerializeJSONProperty]; decide
  | .number .zero, _, _ => by
    simp only [SerializeJSONProperty]; exact esc_not_mem_numberToString _
  | .number (.finite neg ds n), _, _ => by
    simp only [SerializeJSONProperty]; exact esc_not_mem_numberToString _
  | .array elements, indent, hi => by
    have hi2 : ESC ∉ indent ++ gap := by simp [hi, hgap]
    simp only [SerializeJSONProperty]
    exact esc_not_mem_wrapItems _ _ _ _ _ _ (by decide) (by decide) hi hi2
      (esc_not_mem_SerializeJSONElements gap hgap elements _ hi2)
  | .object members, indent, hi => by
    have hi2 : ESC ∉ indent ++ gap := by simp [hi, hgap]
    simp only [SerializeJSONProperty]
    exact esc_not_mem_wrapItems _ _ _ _ _ _ (by decide) (by decide) hi hi2
      (esc_not_mem_SerializeJSONMembers gap hgap members _ hi2)
theorem esc_not_mem_SerializeJSONElements (gap : JSString) (hgap : ESC ∉ gap) :
    ∀ (vs : List JSONValue) (indent : JSString), ESC ∉ indent →
      ∀ x ∈ SerializeJSONElements gap indent vs, ESC ∉ x
  | [], _, _ => by simp [SerializeJSONElements]
  | v :: vs, indent, hi => by
    intro x hx
    simp only [SerializeJSONElements, List.mem_cons] at hx
    rcases hx with rfl | hx
    · exact esc_not_mem_SerializeJSONProperty gap hgap v indent hi
    · exact esc_not_mem_SerializeJSONElements gap hgap vs indent hi x hx
theorem esc_not_mem_SerializeJSONMembers (gap : JSString) (hgap : ESC ∉ gap) :
    ∀ (ms : List (JSString × JSONValue)) (indent : JSString), ESC ∉ indent →
      ∀ x ∈ SerializeJSONMembers gap indent ms, ESC ∉ x
  | [], _, _ => by simp [SerializeJSONMembers]
  | (key, v) :: ms, indent, hi => by
    intro x hx
    simp only [SerializeJSONMembers, List.mem_cons] at hx
    rcases hx with rfl | hx
    · have hk := esc_not_mem_QuoteJSONString key
      have hv := esc_not_mem_SerializeJSONProperty gap hgap v indent hi
      have hcolon : ESC ∉ js ":" := by decide
      have hspace : ESC ∉ (if gap = [] then [] else js " ") := by
        split_ifs
        · simp
        · decide
      simp only [List.mem_append, not_or]
      exact ⟨⟨⟨hk, hcolon⟩, hspace⟩, hv⟩
    · exact esc_not_mem_SerializeJSONMembers gap hgap ms indent hi x hx
end

theorem esc_not_mem_JSON_stringify (value : JSONValue) (space : JSString)
    (h : ESC ∉ space.take 10) : ESC ∉ JSON_stringify value space :=
  esc_not_mem_SerializeJSONProperty _ h value [] (by simp)

theorem removeAllAux_skip (pat : JSString) (a t : JSString) :
    removeAllAux pat a.length (a ++ t) = removeAllAux pat 0 t := by
  induction a with
  | nil => rfl
  | cons c a ih => simpa [removeAllAux] using ih

theorem removeAll_pattern_append (p : Nat) (ps t : JSString) :
    removeAll (p :: ps) ((p :: ps) ++ t) = removeAll (p :: ps) t := by
  have hpre : (p :: ps).isPrefixOf (p :: (ps ++ t)) = true := by
    rw [List.isPrefixOf_iff_prefix]
    exact ⟨t, rfl⟩
  have hskip := removeAllAux_skip (p :: ps) ps t
  show removeAllAux (p :: ps) 0 (p :: (ps ++ t)) = removeAllAux (p :: ps) 0 t
  rw [removeAllAux, hpre]
  simpa using hskip

theorem removeAll_cons_of_ne (p : Nat) (ps : JSString) (c : Nat) (t : JSString) (h : c ≠ p) :
    removeAll (p :: ps) (c :: t) = c :: removeAll (p :: ps) t := by
  have hne : (p == c) = false := by simpa using fun h2 : p = c => h h2.symm
  simp [removeAll, removeAllAux, List.isPrefixOf, hne]

theorem removeAll_append_of_not_mem (p : Nat) (ps : JSString) (a t : JSString) (h : p ∉ a) :
    removeAll (p :: ps) (a ++ t) = a ++ removeAll (p :: ps) t := by
  induction a with
  | nil => rfl
  | cons c a ih =>
    simp only [List.mem_cons, not_or] at h
    rw [List.cons_append, removeAll_cons_of_ne p ps c _ (fun h2 => h.1 h2.symm), ih h.2,
      List.cons_append]

theorem removeAll_of_not_mem (p : Nat) (ps : JSString) (s : JSString) (h : p ∉ s) :
    removeAll (p :: ps) s = s := by
  have := removeAll_append_of_not_mem p ps s [] h
  simpa [removeAll, removeAllAux] using this

theorem stripColour_of_not_mem (s : JSString) (h : ESC ∉ s) : stripColour s = s := by
  unfold stripColour GREEN_OPEN COLOR_RESET
  rw [removeAll_of_not_mem ESC _ s h, removeAll_of_not_mem ESC _ s h]

theorem stripColour_append_of_not_mem (a t : JSString) (h : ESC ∉ a) :
    stripColour (a ++ t) = a ++ stripColour t := by
  unfold stripColour GREEN_OPEN COLOR_RESET
  rw [removeAll_append_of_not_mem ESC _ a t h, removeAll_append_of_not_mem ESC _ a _ h]

theorem stripColour_green_open (t : JSString) : stripColour (GREEN_OPEN ++ t) = stripColour t := by
  unfold stripColour
  rw [show GREEN_OPEN = ESC :: js "[32m" from rfl, removeAll_pattern_append]

theorem removeAll_green_open_reset (t : JSString) :
    removeAll GREEN_OPEN (COLOR_RESET ++ t) = COLOR_RESET ++ removeAll GREEN_OPEN t := by
  have h1 : removeAll GREEN_OPEN (COLOR_RESET ++ t)
      = ESC :: removeAll GREEN_OPEN (js "[39m" ++ t) := by
    simp [removeAll, removeAllAux, GREEN_OPEN, COLOR_RESET, js, List.isPrefixOf, ESC]
  have h2 : removeAll GREEN_OPEN (js "[39m" ++ t) = js "[39m" ++ removeAll GREEN_OPEN t :=
    removeAll_append_of_not_mem ESC (js "[32m") (js "[39m") t (by decide)
  rw [h1, h2]
  rfl

theorem stripColour_reset (t : JSString) : stripColour (COLOR_RESET ++ t) = stripColour t := by
  unfold stripColour
  rw [removeAll_green_open_reset, show COLOR_RESET = ESC :: js "[39m" from rfl,
    removeAll_pattern_append]

theorem matchBody_eq_some (cs : JSString) :
    ∀ captured rest, matchBody cs = some (captured, rest) → cs = captured ++ QUOTE :: rest := by
  induction cs with
  | nil => intro captured rest h; simp [matchBody] at h
  | cons c cs ih =>
    intro captured rest h
    simp only [matchBody] at h
    split_ifs at h with h1 h2
    · simp only [Option.some.injEq, Prod.mk.injEq] at h
      obtain ⟨rfl, rfl⟩ := h
      simp [h1]
    · cases hm : matchBody cs with
      | none => simp [hm] at h
      | some r =>
        obtain ⟨cap2, rest2⟩ := r
        simp only [hm, Option.some.injEq, Prod.mk.injEq] at h
        obtain ⟨rfl, rfl⟩ := h
        rw [ih cap2 rest2 hm]
        rfl

theorem stripColour_replaceLoop (enabled : Bool) (fuel : Nat) :
    ∀ s : JSString, ESC ∉ s → stripColour (replaceLoop enabled fuel s) = s := by
  induction fuel with
  | zero => intro s h; simpa [replaceLoop] using stripColour_of_not_mem s h
  | succ fuel ih =>
    intro s h
    cases s with
    | nil => simpa [replaceLoop] using stripColour_of_not_mem [] (by simp)
    | cons c cs =>
      simp only [List.mem_cons, not_or] at h
      have hcons : ∀ t, stripColour (c :: t) = c :: stripColour t := fun t =>
        stripColour_append_of_not_mem [c] t (by simpa using h.1)
      simp only [replaceLoop]
      split_ifs with hq
      · cases hm : matchBody cs with
        | none => simp only [hcons, ih cs h.2]
        | some r =>
          obtain ⟨captured, rest⟩ := r
          have hcs := matchBody_eq_some cs captured rest hm
          have hcap : ESC ∉ captured := fun hmem => h.2 (by rw [hcs]; simp [hmem])
          have hrest : ESC ∉ rest := fun hmem => h.2 (by rw [hcs]; simp [hmem])
          have hquoted : ESC ∉ QUOTE :: (captured ++ [QUOTE]) := by
            simp only [List.mem_cons, List.mem_append, List.mem_singleton, not_or]
            exact ⟨by decide, hcap, by decide, by simp⟩
          simp only [replacement, stylize]
          cases enabled with
          | false =>
            simp only [Bool.false_eq_true, if_false]
            rw [stripColour_append_of_not_mem _ _ hquoted, ih rest hrest, hcs, hq]
            simp
          | true =>
            simp only [if_true, List.append_assoc]
            rw [stripColour_green_open, stripColour_append_of_not_mem _ _ hquoted,
              stripColour_reset, ih rest hrest, hcs, hq]
            simp
      · simp only [hcons, ih cs h.2]

/-! ## The fuel of the loops is never used up -/

theorem replaceLoop_fuel (enabled : Bool) (fuel1 : Nat) :
    ∀ (fuel2 : Nat) (s : JSString), s.length ≤ fuel1 → s.length ≤ fuel2 →
      replaceLoop enabled fuel1 s = replaceLoop enabled fuel2 s := by
  induction fuel1 with
  | zero =>
    intro fuel2 s h1 _
    have hs : s = [] := List.length_eq_zero.1 (Nat.le_zero.1 h1)
    subst hs
    cases fuel2 <;> rfl
  | succ fuel1 ih =>
    intro fuel2 s h1 h2
    cases s with
    | nil => cases fuel2 <;> rfl
    | cons c cs =>
      cases fuel2 with
      | zero => simp at h2
      | succ fuel2 =>
        simp only [List.length_cons, Nat.add_le_add_iff_right] at h1 h2
        simp only [replaceLoop]
        split_ifs with hq
        · cases hm : matchBody cs with
          | none => simp only [ih fuel2 cs h1 h2]
          | some r =>
            obtain ⟨captured, rest⟩ := r
            have hcs := matchBody_eq_some cs captured rest hm
            have hlen : rest.length ≤ cs.length := by
              rw [hcs]; simp only [List.length_append, List.length_cons]; omega
            simp only [ih fuel2 rest (by omega) (by omega)]
        · simp only [ih fuel2 cs h1 h2]

/-- The colour pass does not depend on the fuel once the fuel covers the text:
`colorize` is the replace loop run to its end. -/
theorem colorize_eq_replaceLoop (enabled : Bool) (fuel : Nat) (s : JSString)
    (h : s.length ≤ fuel) : colorize enabled s = replaceLoop enabled fuel s :=
  replaceLoop_fuel enabled s.length fuel s (Nat.le_refl _) h

theorem decimalDigitsAux_fuel (fuel1 : Nat) :
    ∀ (fuel2 m : Nat) (acc : List Nat), m < fuel1 → m < fuel2 →
      decimalDigitsAux fuel1 m acc = decimalDigitsAux fuel2 m acc := by
  induction fuel1 with
  | zero => intro fuel2 m acc h1 _; omega
  | succ fuel1 ih =>
    intro fuel2 m acc h1 h2
    cases fuel2 with
    | zero => omega
    | succ fuel2 =>
      simp only [decimalDigitsAux]
      split_ifs with hm
      · rfl
      · exact ih fuel2 (m / 10) _ (by omega) (by omega)

/-! ## C10 and C7: colour codes and escape characters in the output -/

/-- What `minify` returns when `JSON.parse` accepts the minified text: the
rendering of the value, passed through the colour replacement when `color` is
set. -/
theorem minify_of_parse_ok (X : Externals) (raw : JSString) (color : Bool) (w : World)
    (v : JSONValue) (hparse : X.JSON_parse (X.jsonminify raw) = .ok v) :
    (minify X raw color w).1 = .ok (if color then
      colorize X.colorsEnabled (JSON_stringify v w.cmd.indent)
      else JSON_stringify v w.cmd.indent) := by
  cases color <;> simp [minify, hparse]

/-- C10: for valid JSON and an indent without escape character, `minify` with
colour on returns the text `minify` returns with colour off, with colour codes
inserted: deleting every green opening code and every closing code from the
coloured text gives back the plain text, unit for unit. -/
theorem C10_colour_only_inserts_codes (X : Externals) (raw : JSString) (w : World)
    (v : JSONValue) (hparse : X.JSON_parse (X.jsonminify raw) = .ok v)
    (hindent : ESC ∉ w.cmd.indent) :
    ∃ coloured plain, (minify X raw true w).1 = .ok coloured
      ∧ (minify X raw false w).1 = .ok plain
      ∧ stripColour coloured = plain := by
  refine ⟨_, _, minify_of_parse_ok X raw true w v hparse,
    minify_of_parse_ok X raw false w v hparse, ?_⟩
  have hgap : ESC ∉ w.cmd.indent.take 10 := fun h => hindent (List.mem_of_mem_take h)
  simpa [colorize] using stripColour_replaceLoop X.colorsEnabled _ _
    (esc_not_mem_JSON_stringify v w.cmd.indent hgap)

/-- C10 (witness): on `{"a":"x","b":[1,"y"]}` with the default indent the
coloured text is the plain text with colour codes around the four strings. -/
theorem C10_colour_only_inserts_codes_witness :
    ∃ coloured plain,
      (minify reference (js "\x7b\"a\":\"x\",\"b\":[1,\"y\"]\x7d") true emptyWorld).1
          = .ok coloured
      ∧ (minify reference (js "\x7b\"a\":\"x\",\"b\":[1,\"y\"]\x7d") false emptyWorld).1
          = .ok plain
      ∧ stripColour coloured = plain :=
  C10_colour_only_inserts_codes reference (js "\x7b\"a\":\"x\",\"b\":[1,\"y\"]\x7d") emptyWorld
    (.object [(js "a", .string (js "x")),
      (js "b", .array [.number (.finite false [1] 1), .string (js "y")])])
    rfl (by decide)

/-- C7 (as stated, refuted): with the escape character as indent, the text
`minify` returns with colour off for `{"a":1}`, which is what `file2file`
writes, holds an escape character at the start of its second line. -/
theorem C7_escape_indent_reaches_file_output :
    (minify reference (js "\x7b\"a\":1\x7d") false escapeIndentWorld).1
        = .ok (js "\x7b\n\x1b\"a\": 1\n\x7d")
      ∧ ESC ∈ js "\x7b\n\x1b\"a\": 1\n\x7d" := by
  constructor
  · rfl
  · decide

/-- C7 (amended): for valid JSON and an indent whose first ten code units
hold no escape character, the text `minify` returns with colour off is the
rendering of the parsed value and holds no escape character. -/
theorem C7_no_escape_in_file_output (X : Externals) (raw : JSString) (w : World)
    (v : JSONValue) (hparse : X.JSON_parse (X.jsonminify raw) = .ok v)
    (hindent : ESC ∉ w.cmd.indent.take 10) :
    ∃ output, (minify X raw false w).1 = .ok output ∧ ESC ∉ output :=
  ⟨_, minify_of_parse_ok X raw false w v hparse,
    esc_not_mem_JSON_stringify v w.cmd.indent hindent⟩

/-- C7 (witness): `{"a":"\u001b"}` with the default indent; the escape
character inside the string value is written as `\u001b`. -/
theorem C7_no_escape_in_file_output_witness :
    ∃ output, (minify reference (js "\x7b\"a\":\"\\u001b\"\x7d") false emptyWorld).1
        = .ok output ∧ ESC ∉ output :=
  C7_no_escape_in_file_output reference (js "\x7b\"a\":\"\\u001b\"\x7d") emptyWorld
    (.object [(js "a", .string [ESC])]) rfl (by decide)

/-! ## C8: the layout of the rendered text -/

theorem layout_append (unit : JSString) (ps qs : List Piece) :
    layout unit (ps ++ qs) = layout unit ps ++ layout unit qs := by
  induction ps with
  | nil => rfl
  | cons p ps ih => simp [layout, ih]

theorem indentation_succ (unit : JSString) (depth : Nat) :
    indentation unit (depth + 1) = indentation unit depth ++ unit := by
  simp [indentation, List.replicate_succ']

theorem layout_separated_compact :
    ∀ (depth : Nat) (items : List (List Piece)),
      layout [] (separated depth items) = joinWith (js ",") (items.map (layout []))
  | _, [] => rfl
  | _, [item] => by simp [separated, layout, pieceText, joinWith]
  | depth, item :: next :: rest => by
    have ih := layout_separated_compact depth (next :: rest)
    simp only [List.map_cons] at ih
    simp [separated, layout, pieceText, layout_append, ih, joinWith]

theorem layout_separated (unit : JSString) (hunit : unit ≠ []) (depth : Nat) :
    ∀ (item : List Piece) (items : List (List Piece)),
      layout unit (separated depth (item :: items))
        = LF :: indentation unit depth
          ++ joinWith (js "," ++ LF :: indentation unit depth)
            ((item :: items).map (layout unit))
  | item, [] => by simp [separated, layout, pieceText, joinWith, hunit]
  | item, next :: rest => by
    have ih := layout_separated unit hunit depth next rest
    simp only [List.map_cons] at ih
    simp [separated, layout, pieceText, hunit, layout_append, ih, joinWith]

theorem wrapItems_eq_layout (opening closing : Nat) (gap : JSString) (depth : Nat)
    (items : List (List Piece)) :
    wrapItems opening closing gap (indentation gap depth) (indentation gap depth ++ gap)
        (items.map (layout gap))
      = layout gap (bracketed opening closing depth items) := by
  cases items with
  | nil => simp [wrapItems, bracketed, layout, pieceText]
  | cons item rest =>
    by_cases hgap : gap = []
    · subst hgap
      have h := layout_separated_compact (depth + 1) (item :: rest)
      simp only [List.map_cons] at h
      simp [wrapItems, bracketed, layout, pieceText, layout_append, h]
    · have h := layout_separated gap hgap (depth + 1) item rest
      simp only [List.map_cons] at h
      simp [wrapItems, bracketed, layout, pieceText, layout_append, h, hgap,
        indentation_succ]

mutual
theorem SerializeJSONProperty_eq_layout (gap : JSString) :
    ∀ (v : JSONValue) (depth : Nat),
      SerializeJSONProperty gap (indentation gap depth) v = layout gap (valuePieces depth v)
  | .null, _ => by simp [SerializeJSONProperty, valuePieces, layout, pieceText]
  | .bool true, _ => by simp [SerializeJSONProperty, valuePieces, layout, pieceText]
  | .bool false, _ => by simp [SerializeJSONProperty, valuePieces, layout, pieceText]
  | .string s, _ => by simp [SerializeJSONProperty, valuePieces, layout, pieceText]
  | .number .nonFinite, _ => by simp [SerializeJSONProperty, valuePieces, layout, pieceText]
  | .number .zero, _ => by simp [SerializeJSONProperty, valuePieces, layout, pieceText]
  | .number (.finite neg ds n), _ => by
    simp [SerializeJSONProperty, valuePieces, layout, pieceText]
  | .array elements, depth => by
    have h := SerializeJSONElements_eq_layout gap elements (depth + 1)
    simp only [SerializeJSONProperty, valuePieces]
    rw [← indentation_succ, h, indentation_succ, wrapItems_eq_layout]
  | .object members, depth => by
    have h := SerializeJSONMembers_eq_layout gap members (depth + 1)
    simp only [SerializeJSONProperty, valuePieces]
    rw [← indentation_succ, h, indentation_succ, wrapItems_eq_layout]
theorem SerializeJSONElements_eq_layout (gap : JSString) :
    ∀ (vs : List JSONValue) (depth : Nat),
      SerializeJSONElements gap (indentation gap depth) vs
        = (elementPieces depth vs).map (layout gap)
  | [], _ => by simp [SerializeJSONElements, elementPieces]
  | v :: vs, depth => by
    simp [SerializeJSONElements, elementPieces, SerializeJSONProperty_eq_layout gap v depth,
      SerializeJSONElements_eq_layout gap vs depth]
theorem SerializeJSONMembers_eq_layout (gap : JSString) :
    ∀ (ms : List (JSString × JSONValue)) (depth : Nat),
      SerializeJSONMembers gap (indentation gap depth) ms
        = (memberPieces depth ms).map (layout gap)
  | [], _ => by simp [SerializeJSONMembers, memberPieces]
  | (key, v) :: ms, depth => by
    simp [SerializeJSONMembers, memberPieces, SerializeJSONProperty_eq_layout gap v depth,
      SerializeJSONMembers_eq_layout gap ms depth, layout, pieceText]
end

theorem JSON_stringify_eq_layout (value : JSONValue) (space : JSString) :
    JSON_stringify value space = layout (space.take 10) (valuePieces 0 value) := by
  have h := SerializeJSONProperty_eq_layout (space.take 10) value 0
  simpa [indentation] using h

theorem tokenOnOneLine_separated (depth : Nat) :
    ∀ items : List (List Piece), (∀ item ∈ items, ∀ p ∈ item, tokenOnOneLine p) →
      ∀ p ∈ separated depth items, tokenOnOneLine p
  | [], _ => by simp [separated]
  | [item], h => by
    intro p hp
    simp only [separated, List.mem_cons] at hp
    rcases hp with rfl | hp
    · trivial
    · exact h item (by simp) p hp
  | item :: next :: rest, h => by
    have ih := tokenOnOneLine_separated depth (next :: rest)
      (fun i hi => h i (List.mem_cons_of_mem _ hi))
    intro p hp
    simp only [separated, List.cons_append, List.mem_cons, List.mem_append] at hp
    rcases hp with rfl | hp | rfl | hp
    · trivial
    · exact h item (by simp) p hp
    · show LF ∉ js ","
      decide
    · exact ih p hp

theorem tokenOnOneLine_bracketed (opening closing depth : Nat) (items : List (List Piece))
    (ho : LF ≠ opening) (hc : LF ≠ closing)
    (h : ∀ item ∈ items, ∀ p ∈ item, tokenOnOneLine p) :
    ∀ p ∈ bracketed opening closing depth items, tokenOnOneLine p := by
  intro p hp
  cases items with
  | nil =>
    simp only [bracketed, List.mem_singleton] at hp
    subst hp
    show LF ∉ [opening, closing]
    simp [ho, hc]
  | cons item rest =>
    simp only [bracketed, List.mem_cons, List.mem_append, List.mem_singleton,
      List.not_mem_nil, or_false] at hp
    rcases hp with rfl | hp | rfl | rfl
    · show LF ∉ [opening]
      simp [ho]
    · exact tokenOnOneLine_separated _ _ h p hp
    · trivial
    · show LF ∉ [closing]
      simp [hc]

theorem lf_not_mem_QuoteJSONString (s : JSString) : LF ∉ QuoteJSONString s := by
  intro h
  have := QuoteJSONString_ge s LF h
  simp [LF] at this

theorem lf_not_mem_numberToString (x : JSNumber) : LF ∉ numberToString x := by
  intro h
  have := numberToString_ge x LF h
  simp [LF] at this

mutual
theorem tokenOnOneLine_valuePieces :
    ∀ (v : JSONValue) (depth : Nat), ∀ p ∈ valuePieces depth v, tokenOnOneLine p
  | .null, _ => by simp only [valuePieces, List.mem_singleton, forall_eq]; show LF ∉ _; decide
  | .bool true, _ => by
    simp only [valuePieces, List.mem_singleton, forall_eq]; show LF ∉ _; decide
  | .bool false, _ => by
    simp only [valuePieces, List.mem_singleton, forall_eq]; show LF ∉ _; decide
  | .string s, _ => by
    simp only [valuePieces, List.mem_singleton, forall_eq]
    exact lf_not_mem_QuoteJSONString s
  | .number .nonFinite, _ => by
    simp only [valuePieces, List.mem_singleton, forall_eq]; show LF ∉ _; decide
  | .number .zero, _ => by
    simp only [valuePieces, List.mem_singleton, forall_eq]
    exact lf_not_mem_numberToString _
  | .number (.finite neg ds n), _ => by
    simp only [valuePieces, List.mem_singleton, forall_eq]
    exact lf_not_mem_numberToString _
  | .array elements, depth => by
    simp only [valuePieces]
    exact tokenOnOneLine_bracketed _ _ _ _ (by decide) (by decide)
      (tokenOnOneLine_elementPieces elements (depth + 1))
  | .object members, depth => by
    simp only [valuePieces]
    exact tokenOnOneLine_bracketed _ _ _ _ (by decide) (by decide)
      (tokenOnOneLine_memberPieces members (depth + 1))
theorem tokenOnOneLine_elementPieces :
    ∀ (vs : List JSONValue) (depth : Nat),
      ∀ item ∈ elementPieces depth vs, ∀ p ∈ item, tokenOnOneLine p
  | [], _ => by simp [elementPieces]
  | v :: vs, depth => by
    intro item hitem
    simp only [elementPieces, List.mem_cons] at hitem
    rcases hitem with rfl | hitem
    · exact tokenOnOneLine_valuePieces v depth
    · exact tokenOnOneLine_elementPieces vs depth item hitem
theorem tokenOnOneLine_memberPieces :
    ∀ (ms : List (JSString × JSONValue)) (depth : Nat),
      ∀ item ∈ memberPieces depth ms, ∀ p ∈ item, tokenOnOneLine p
  | [], _ => by simp [memberPieces]
  | (key, v) :: ms, depth => by
    intro item hitem
    simp only [memberPieces, List.mem_cons] at hitem
    rcases hitem with rfl | hitem
    · intro p hp
      simp only [List.mem_cons] at hp
      rcases hp with rfl | rfl | rfl | hp
      · exact lf_not_mem_QuoteJSONString key
      · show LF ∉ js ":"
        decide
      · trivial
      · exact tokenOnOneLine_valuePieces v depth p hp
    · exact tokenOnOneLine_memberPieces ms depth item hitem
end

/-- C8 (as stated, refuted): with an indent of eleven spaces the member of
`{"a":1}`, at depth 1, is written after ten spaces.  No line of the output
begins with the whole indent, and the output is not the layout that has the
whole indent as its unit. -/
theorem C8_long_indent_is_cut_to_ten :
    (minify reference (js "\x7b\"a\":1\x7d") false elevenSpaceWorld).1
        = .ok (js "\x7b\n          \"a\": 1\n\x7d")
      ∧ ¬ (LF :: elevenSpaceWorld.cmd.indent) <:+: js "\x7b\n          \"a\": 1\n\x7d"
      ∧ (minify reference (js "\x7b\"a\":1\x7d") false elevenSpaceWorld).1
        ≠ .ok (layout elevenSpaceWorld.cmd.indent
            (valuePieces 0 (.object [(js "a", .number (.finite false [1] 1))]))) := by
  refine ⟨rfl, by decide, ?_⟩
  intro h
  have h2 : js "\x7b\n          \"a\": 1\n\x7d" = layout elevenSpaceWorld.cmd.indent
      (valuePieces 0 (.object [(js "a", .number (.finite false [1] 1))])) :=
    Except.ok.inj h
  revert h2
  decide

/-- C8 (amended): for valid JSON, `minify` with colour off returns the
pretty-printed form of the parsed value whose indentation unit is the first
ten code units of the indent: one line when the unit is empty, otherwise every
item of a container at nesting depth `d` on its own line after `d` copies of
the unit, the closing bracket after the copies of its container; no token
holds a line feed.  For an indent of at most ten code units the unit is the
whole indent. -/
theorem C8_indent_fidelity (X : Externals) (raw : JSString) (w : World) (v : JSONValue)
    (hparse : X.JSON_parse (X.jsonminify raw) = .ok v) :
    (minify X raw false w).1 = .ok (layout (w.cmd.indent.take 10) (valuePieces 0 v))
      ∧ (∀ p ∈ valuePieces 0 v, tokenOnOneLine p)
      ∧ (w.cmd.indent.length ≤ 10 →
          (minify X raw false w).1 = .ok (layout w.cmd.indent (valuePieces 0 v))) := by
  have h := minify_of_parse_ok X raw false w v hparse
  simp only [Bool.false_eq_true, if_false, JSON_stringify_eq_layout] at h
  refine ⟨h, tokenOnOneLine_valuePieces v 0, ?_⟩
  intro hlen
  rw [h, List.take_of_length_le hlen]

/-- C8 (witness): `{"a":[1,2]}` with a two-space indent gives the six lines of
the specification, and with the empty indent the one-line form. -/
theorem C8_indent_fidelity_witness :
    (minify reference (js "\x7b\"a\":[1,2]\x7d") false twoSpaceWorld).1
        = .ok (js "\x7b\n  \"a\": [\n    1,\n    2\n  ]\n\x7d")
      ∧ (minify reference (js "\x7b\"a\":[1,2]\x7d") false emptyIndentWorld).1
        = .ok (js "\x7b\"a\":[1,2]\x7d") :=
  ⟨((C8_indent_fidelity reference (js "\x7b\"a\":[1,2]\x7d") twoSpaceWorld
      (.object [(js "a", .array [.number (.finite false [1] 1),
        .number (.finite false [2] 1)])]) rfl).2.2 (by decide)).trans rfl,
    ((C8_indent_fidelity reference (js "\x7b\"a\":[1,2]\x7d") emptyIndentWorld
      (.object [(js "a", .array [.number (.finite false [1] 1),
        .number (.finite false [2] 1)])]) rfl).2.2 (by decide)).trans rfl⟩

/-! ## What the tracing and the pipeline leave untouched -/

@[simp] theorem debug_files (X : Externals) (args : List JSString) (w : World) :
    (debug X args w).files = w.files := by
  unfold debug consoleError; split <;> rfl

@[simp] theorem debug_stdout (X : Externals) (args : List JSString) (w : World) :
    (debug X args w).stdout = w.stdout := by
  unfold debug consoleError; split <;> rfl

@[simp] theorem debug_cmd (X : Externals) (args : List JSString) (w : World) :
    (debug X args w).cmd = w.cmd := by
  unfold debug consoleError; split <;> rfl

@[simp] theorem debug_minifyCalls (X : Externals) (args : List JSString) (w : World) :
    (debug X args w).minifyCalls = w.minifyCalls := by
  unfold debug consoleError; split <;> rfl

/-- The world `minify` leaves behind differs from the one it found in the
error stream and in the record of its calls only. -/
theorem minify_world (X : Externals) (raw : JSString) (color : Bool) (w : World) :
    (minify X raw color w).2.files = w.files
      ∧ (minify X raw color w).2.stdout = w.stdout
      ∧ (minify X raw color w).2.cmd = w.cmd
      ∧ (minify X raw color w).2.minifyCalls = w.minifyCalls ++ [(raw, color)] := by
  cases h1 : X.JSON_parse (X.jsonminify raw) with
  | ok v => cases color <;> simp [minify, h1]
  | error e1 =>
    cases h2 : X.jsonlint_parse (X.jsonminify raw) with
    | ok v2 => cases color <;> simp [minify, h1, h2]
    | error e2 => simp [minify, h1, h2]

/-- A source that `readJsonSync` can read is a regular file. -/
theorem isFileSync_of_read (X : Externals) (files : FileSystem) (path : Option JSString)
    (encoding text : JSString) (h : readJsonSync X files path encoding = .ok text) :
    isFileSync files path = true := by
  unfold readJsonSync readFileSync at h
  unfold isFileSync
  cases path with
  | none => simp at h
  | some p =>
    simp only at h ⊢
    split_ifs at h
    cases hf : files p with
    | none => simp [hf] at h
    | some node =>
      cases node with
      | directory => simp [hf] at h
      | file bytes => rfl

/-! ## C3: `file2file` when the destination is already there -/

/-- C3 (as stated, refuted): the source holds invalid JSON, the destination
exists and `--force` is absent; `file2file` has called `minify` on the source
text and ends with the exception of `jsonlint.parse`, not with status 2. -/
theorem C3_collision_with_invalid_source_throws :
    isFileSync collisionWorld.files collisionWorld.cmd.src = true
      ∧ isFileSync collisionWorld.files collisionWorld.cmd.out = true
      ∧ collisionWorld.cmd.force = false
      ∧ (file2file reference collisionWorld).1
          = .error (.thrown (js "Error") (js "Parse error on line 1"))
      ∧ (file2file reference collisionWorld).1 ≠ .ok 2
      ∧ (file2file reference collisionWorld).2.minifyCalls
          = [(js "\x7b\"a\":\x7d", false)] := by
  refine ⟨rfl, rfl, rfl, rfl, ?_, rfl⟩
  intro h
  have h2 : (file2file reference collisionWorld).1
      = .error (.thrown (js "Error") (js "Parse error on line 1")) := rfl
  rw [h2] at h
  cases h

/-- C3 (amended): the source can be read with the encode option, the
destination is an existing regular file and `--force` is absent.  Then
`file2file` calls `minify` once, on the source text with colour off, and
leaves the file system and standard output as they were; it returns status 2
when `minify` returns a text, and ends with the exception of `minify` when
`minify` throws. -/
theorem C3_destination_collision (X : Externals) (w : World) (text : JSString)
    (hread : readJsonSync X w.files w.cmd.src w.cmd.encode = .ok text)
    (hout : isFileSync w.files w.cmd.out = true)
    (hforce : w.cmd.force = false) :
    (file2file X w).2.files = w.files
      ∧ (file2file X w).2.stdout = w.stdout
      ∧ (file2file X w).2.minifyCalls = w.minifyCalls ++ [(text, false)]
      ∧ (∀ output, (minify X text false w).1 = .ok output → (file2file X w).1 = .ok 2)
      ∧ (∀ e, (minify X text false w).1 = .error e → (file2file X w).1 = .error e) := by
  have hsrc := isFileSync_of_read X w.files w.cmd.src w.cmd.encode text hread
  obtain ⟨hfiles, hstdout, hcmd, hcalls⟩ := minify_world X text false w
  rcases hmin : minify X text false w with ⟨r, w1⟩
  rw [hmin] at hfiles hstdout hcmd hcalls
  simp only at hfiles hstdout hcmd hcalls
  cases r with
  | error e =>
    simp [file2file, hsrc, hread, hmin, hfiles, hstdout, hcalls]
  | ok output =>
    simp [file2file, hsrc, hread, hmin, hfiles, hstdout, hcalls, hcmd, hforce, hout,
      consoleError]

/-- C3 (witness): with `{"a":1}` in the source and `old` in the destination,
`file2file` returns 2 and the destination still holds `old`. -/
theorem C3_destination_collision_witness :
    (file2file reference validCollisionWorld).1 = .ok 2
      ∧ (file2file reference validCollisionWorld).2.files (js "out.json")
          = some (.file (js "old"))
      ∧ (file2file reference validCollisionWorld).2.minifyCalls
          = [(js "\x7b\"a\":1\x7d", false)] :=
  have h := C3_destination_collision reference validCollisionWorld (js "\x7b\"a\":1\x7d")
    rfl rfl rfl
  ⟨h.2.2.2.1 _ rfl, by rw [h.1]; rfl, h.2.2.1⟩

/-! ## C4: `file2file` with `--force` -/

/-- With `--force`, a readable source that `minify` accepts and nothing at the
destination path, `file2file` ends with the `ENOENT` exception of
`fs.unlinkSync` and writes no file. -/
theorem file2file_force_missing_destination (X : Externals) (w : World)
    (text output path : JSString)
    (hread : readJsonSync X w.files w.cmd.src w.cmd.encode = .ok text)
    (hmin : (minify X text false w).1 = .ok output)
    (hforce : w.cmd.force = true) (hout : w.cmd.out = some path)
    (hmissing : w.files path = none) :
    (file2file X w).1 = .error (.ENOENT path) ∧ (file2file X w).2.files = w.files := by
  have hsrc := isFileSync_of_read X w.files w.cmd.src w.cmd.encode text hread
  obtain ⟨hfiles, -, hcmd, -⟩ := minify_world X text false w
  rcases hm : minify X text false w with ⟨r, w1⟩
  rw [hm] at hfiles hcmd hmin
  simp only at hfiles hcmd hmin
  subst hmin
  simp [file2file, hsrc, hread, hm, hfiles, hcmd, hforce, hout, unlinkSync, hmissing]

/-- With `--force`, a readable source that `minify` accepts and a regular file
at the destination path, `file2file` returns 0 and the destination holds the
encoded output of `minify`. -/
theorem file2file_force_existing_destination (X : Externals) (w : World)
    (text output path : JSString) (old : List Nat)
    (hread : readJsonSync X w.files w.cmd.src w.cmd.encode = .ok text)
    (hmin : (minify X text false w).1 = .ok output)
    (hforce : w.cmd.force = true) (hout : w.cmd.out = some path)
    (hold : w.files path = some (.file old)) :
    (file2file X w).1 = .ok 0
      ∧ (file2file X w).2.files path = some (.file (X.encode w.cmd.encode output)) := by
  have hsrc := isFileSync_of_read X w.files w.cmd.src w.cmd.encode text hread
  have henc : X.isEncoding w.cmd.encode = true := by
    unfold readJsonSync readFileSync at hread
    cases hp : w.cmd.src with
    | none => simp [hp] at hread
    | some p =>
      simp only [hp] at hread
      split_ifs at hread with h
      simpa using h
  obtain ⟨hfiles, -, hcmd, -⟩ := minify_world X text false w
  rcases hm : minify X text false w with ⟨r, w1⟩
  rw [hm] at hfiles hcmd hmin
  simp only at hfiles hcmd hmin
  subst hmin
  have hgone : isFileSync (fun q => if q = path then none else w.files q) (some path)
      = false := by simp [isFileSync]
  simp [file2file, hsrc, hread, hm, hfiles, hcmd, hforce, hout, unlinkSync, hold, hgone,
    writeFileSync, henc, consoleInfo]

/-- C4 (the code at the failing input): the source holds the valid text
`{"a":1}`, `--force` is set and nothing is at `out.json`.  `file2file` ends
with `ENOENT` for `out.json` instead of returning 0, and `out.json` is still
missing afterwards. -/
theorem C4_force_without_destination_throws :
    isFileSync forceWorld.files forceWorld.cmd.src = true
      ∧ forceWorld.cmd.force = true
      ∧ forceWorld.files (js "out.json") = none
      ∧ (minify reference (js "\x7b\"a\":1\x7d") false forceWorld).1
          = .ok (js "\x7b\n    \"a\": 1\n\x7d")
      ∧ (file2file reference forceWorld).1 = .error (.ENOENT (js "out.json"))
      ∧ (file2file reference forceWorld).2.files (js "out.json") = none :=
  have h := file2file_force_missing_destination reference forceWorld (js "\x7b\"a\":1\x7d")
    (js "\x7b\n    \"a\": 1\n\x7d") (js "out.json") rfl rfl rfl rfl rfl
  ⟨rfl, rfl, rfl, rfl, h.1, by rw [h.2]; rfl⟩

/-! ## C9: the encoding `file2stdout` reads with -/

/-- When the source is a regular file, `file2stdout` calls `minify` once, with
colour on, on the `utf-8` reading of the bytes of the file, whatever the
encode option is. -/
theorem file2stdout_reads_utf8 (X : Externals) (path : Option JSString) (w : World)
    (p : JSString) (bytes : List Nat)
    (hsrc : resolvedSource path w = some p) (hfile : w.files p = some (.file bytes))
    (hutf8 : X.isEncoding (js "utf-8") = true) :
    (file2stdout X path w).2.minifyCalls
      = w.minifyCalls ++ [(X.decode (js "utf-8") bytes, true)] := by
  unfold resolvedSource at hsrc
  cases hp : truthy path
  · simp only [hp, Bool.false_eq_true, if_false] at hsrc
    obtain ⟨-, -, -, hcalls⟩ := minify_world X (X.decode (js "utf-8") bytes) true w
    rcases hm : minify X (X.decode (js "utf-8") bytes) true w with ⟨r, w1⟩
    rw [hm] at hcalls
    cases r <;>
      simp_all [file2stdout, isFileSync, readJsonSync, readFileSync]
  · simp only [hp, if_true] at hsrc
    obtain ⟨-, -, -, hcalls⟩ := minify_world X (X.decode (js "utf-8") bytes) true
      { w with cmd := { w.cmd with src := some p } }
    rcases hm : minify X (X.decode (js "utf-8") bytes) true
      { w with cmd := { w.cmd with src := some p } } with ⟨r, w1⟩
    rw [hm] at hcalls
    cases r <;>
      simp_all [file2stdout, isFileSync, readJsonSync, readFileSync]

/-- C9 (the code at the failing input): with `--encode latin1` and a source
holding `"é"` in Latin-1, `file2stdout` passes to `minify` the UTF-8 reading
of the bytes, in which U+FFFD stands for the byte `E9`, and prints that; the
text in the encoding of the option, `"é"`, is not what is formatted. -/
theorem C9_file2stdout_reads_utf8 :
    isFileSync latin1World.files (some (js "in.json")) = true
      ∧ reference.decode latin1World.cmd.encode [0x22, 0xE9, 0x22] = [0x22, 0xE9, 0x22]
      ∧ (file2stdout reference (some (js "in.json")) latin1World).1 = .ok 0
      ∧ (file2stdout reference (some (js "in.json")) latin1World).2.minifyCalls
          = [([0x22, 0xFFFD, 0x22], true)]
      ∧ (file2stdout reference (some (js "in.json")) latin1World).2.stdout
          = GREEN_OPEN ++ [0x22, 0xFFFD, 0x22] ++ COLOR_RESET := by
  refine ⟨rfl, rfl, rfl, rfl, rfl⟩

/-! ## C6: what the colour pass wraps -/

/-- C6 (the code at the failing input): the JSON text `"a\"b"` is rendered as
the one literal `"a\"b"`.  The colour pass wraps its first four units, up to
the escaped quote, and leaves `b"` outside; the literal as a whole between the
colour codes does not occur in the output. -/
theorem C6_escaped_quote_ends_the_colour :
    (minify reference (js "\"a\\\"b\"") false emptyWorld).1 = .ok (js "\"a\\\"b\"")
      ∧ (minify reference (js "\"a\\\"b\"") true emptyWorld).1
          = .ok (GREEN_OPEN ++ js "\"a\\\"" ++ COLOR_RESET ++ js "b\"")
      ∧ ¬ (GREEN_OPEN ++ js "\"a\\\"b\"" ++ COLOR_RESET)
          <:+: (GREEN_OPEN ++ js "\"a\\\"" ++ COLOR_RESET ++ js "b\"") := by
  refine ⟨rfl, rfl, by decide⟩

end Mjson
